import Mathlib

/-!
Verification development for the napgram link-analysis plugin.

The TypeScript sources are shallowly embedded in Lean:

* Strings are modelled as Lean `String`/`List Char` (sequences of Unicode
  code points; JavaScript indexes UTF-16 code units, which coincides with
  code points for all inputs considered here).
* JavaScript `number` timestamps and counters are modelled as `Int`
  (all uses in the embedded code are integral).
* `Map<string, number>` is modelled as an association list with
  JavaScript `Map` get/set semantics; `Set<string>` as a `List String`
  with first-insertion order.
* The WHATWG `URL` constructor used by the sources is an external runtime
  facility; it is modelled by an explicit parser (`Url.parseURL`) capturing
  scheme parsing, special-scheme authority parsing (userinfo, lowercased
  host with forbidden-code-point validation, port with default-port
  stripping), path/query/fragment splitting with backslash-as-slash and
  WHATWG percent-encode sets (UTF-8 percent-encoding of non-ASCII).
  Deliberate simplifications that do not affect the claims below:
  no IDNA/punycode and no IPv4/IPv6 canonicalization (hosts that would be
  rewritten by those passes are never in the allow-lists), no
  percent-decoding inside hosts, and no dot-segment removal in paths.
* Asynchronous network calls are modelled by passing the outcome of each
  attempt as an explicit argument (an oracle); thrown errors become
  `Except` values.
* The `JSON.parse` builtin is modelled as an explicit oracle argument
  `jp : String → Option Json` (`none` for a thrown-and-caught parse
  error); every statement about the xhs miner holds for an arbitrary
  oracle.  JSON numbers are modelled as integers (only status codes and
  integer statistics are ever read).
* The `Date` accessors of `formatDate` are modelled in UTC (the host
  timezone is not part of the embedded state).
-/

namespace Dedup

/-- JavaScript Map modelled as an association list (insertion order kept,
`set` overwrites in place). -/
def MapSI := List (String × Int)

def mapGet (m : MapSI) (k : String) : Option Int :=
  match m with
  | [] => none
  | (k₁, v₁) :: rest => if k₁ = k then some v₁ else mapGet rest k

def mapSet (m : MapSI) (k : String) (v : Int) : MapSI :=
  match m with
  | [] => [(k, v)]
  | (k₁, v₁) :: rest => if k₁ = k then (k, v) :: rest else (k₁, v₁) :: mapSet rest k v

/-- One key is fresh: `typeof lastParsed === number && now - lastParsed < cacheDurationMs`. -/
def isFreshKey (m : MapSI) (cacheDurationMs now : Int) (k : String) : Bool :=
  match mapGet m k with
  | some lastParsed => decide (now - lastParsed < cacheDurationMs)
  | none => false

/-- Embedding of `isRecentlyParsed` (dedup-utils.ts): true iff any key was
parsed within the cache window. -/
def isRecentlyParsed (keys : List String) (m : MapSI) (cacheDurationMs now : Int) : Bool :=
  keys.any (isFreshKey m cacheDurationMs now)

/-- Embedding of `markRecentlyParsed` (dedup-utils.ts): set every key to `now`. -/
def markRecentlyParsed (keys : List String) (m : MapSI) (now : Int) : MapSI :=
  keys.foldl (fun acc k => mapSet acc k now) m

/-- Embedding of `checkAndMarkParsed` (dedup-utils.ts): returns the boolean
result together with the map after the call.  The source first loops over
the keys looking for a fresh entry (returning `true` without touching the
map), and only otherwise marks every key at `now` and returns `false`. -/
def checkAndMarkParsed (cacheKeys : List String) (m : MapSI) (cacheDurationMs now : Int) :
    Bool × MapSI :=
  if isRecentlyParsed cacheKeys m cacheDurationMs now then (true, m)
  else (false, markRecentlyParsed cacheKeys m now)

/-- Embedding of `checkAndAddToSeen` (dedup-utils.ts).  The canonical key is
`string | undefined`; `none` models `undefined`.  A falsy key (undefined or
the empty string) short-circuits to `false` before the set is consulted. -/
def checkAndAddToSeen (canonicalKey : Option String) (seenSet : List String) :
    Bool × List String :=
  match canonicalKey with
  | none => (false, seenSet)
  | some k =>
    if k = "" then (false, seenSet)
    else if seenSet.contains k then (true, seenSet)
    else (false, seenSet ++ [k])

end Dedup

namespace Fmt

/-! Numeric and text formatting helpers.  These functions appear verbatim in
both `src/bili.ts` and the standalone bili plugin variant; they are defined
once here.  JavaScript `Number.prototype.toFixed(1)` on a quotient `v / d` of
nonnegative integers is modelled by exact half-up decimal rounding of the
rational `v / d`; this agrees with the IEEE-double computation except at exact
decimal ties, where double rounding may differ (no claim below involves such a
tie). -/

def digitChar (n : Nat) : Char := Char.ofNat (48 + n)

def natToDecAux : Nat → Nat → List Char
  | 0, _ => []
  | fuel + 1, n =>
    if n < 10 then [digitChar n]
    else natToDecAux fuel (n / 10) ++ [digitChar (n % 10)]

/-- Decimal rendering of a natural number (JS `Number.prototype.toString` on
a nonnegative integer). -/
def natToDec (n : Nat) : List Char := natToDecAux (n + 1) n

/-- JS `Number.prototype.toString` on an integer value. -/
def intToString (v : Int) : String :=
  if v < 0 then String.mk ('-' :: natToDec (-v).toNat) else String.mk (natToDec v.toNat)

/-- Embedding of `formatCountUnit` (bili.ts) applied to `v / d`:
`value.toFixed(1)` with a trailing `.0` suppressed. -/
def formatCountUnitScaled (v d : Nat) : String :=
  let tenths := (10 * v + d / 2) / d
  if tenths % 10 = 0 then String.mk (natToDec (tenths / 10))
  else String.mk (natToDec (tenths / 10) ++ ['.'] ++ natToDec (tenths % 10))

/-- Embedding of `formatCount` (bili.ts). -/
def formatCount (value : Int) : String :=
  if 100000000 ≤ value then formatCountUnitScaled value.toNat 100000000 ++ "亿"
  else if 10000 ≤ value then formatCountUnitScaled value.toNat 10000 ++ "万"
  else intToString value

end Fmt

namespace Url

/-! Model of the WHATWG `URL` runtime class (see the header comment). -/

/-- Characters that are awkward under the source-file token rules are built
from their code points. -/
def aposChar : Char := Char.ofNat 39

def backtickChar : Char := Char.ofNat 96

def lbraceChar : Char := Char.ofNat 123

def rbraceChar : Char := Char.ofNat 125

def isAsciiDigit (c : Char) : Bool := decide (48 ≤ c.toNat ∧ c.toNat ≤ 57)

def isAsciiAlpha (c : Char) : Bool :=
  decide ((65 ≤ c.toNat ∧ c.toNat ≤ 90) ∨ (97 ≤ c.toNat ∧ c.toNat ≤ 122))

/-- ASCII lowercasing of one character (JS `toLowerCase` restricted to ASCII;
hosts reaching it are ASCII in practice). -/
def lowerChar (c : Char) : Char :=
  if 65 ≤ c.toNat ∧ c.toNat ≤ 90 then Char.ofNat (c.toNat + 32) else c

def lowerStr (cs : List Char) : List Char := cs.map lowerChar

/-- The JavaScript `\s` / `String.prototype.trim` whitespace set. -/
def isJsWhitespace (c : Char) : Bool :=
  decide (c.toNat = 9 ∨ c.toNat = 10 ∨ c.toNat = 11 ∨ c.toNat = 12 ∨ c.toNat = 13 ∨
    c.toNat = 32 ∨ c.toNat = 160 ∨ c.toNat = 5760 ∨ (8192 ≤ c.toNat ∧ c.toNat ≤ 8202) ∨
    c.toNat = 8232 ∨ c.toNat = 8233 ∨ c.toNat = 8239 ∨ c.toNat = 8287 ∨
    c.toNat = 12288 ∨ c.toNat = 65279)

/-- JS `String.prototype.trim`. -/
def jsTrim (cs : List Char) : List Char :=
  ((cs.dropWhile isJsWhitespace).reverse.dropWhile isJsWhitespace).reverse

def lStartsWith : List Char → List Char → Bool
  | [], _ => true
  | _ :: _, [] => false
  | p :: ps, c :: cs => c == p && lStartsWith ps cs

def lEndsWith (pat cs : List Char) : Bool := lStartsWith pat.reverse cs.reverse

/-- Split a list at the last occurrence of `sep` (the separator removed);
`none` when `sep` does not occur. -/
def splitAtLast (sep : Char) : List Char → Option (List Char × List Char)
  | [] => none
  | c :: cs =>
    match splitAtLast sep cs with
    | some (before, after) => some (c :: before, after)
    | none => if c = sep then some ([], cs) else none

def decToNat (ds : List Char) : Nat := ds.foldl (fun a c => a * 10 + (c.toNat - 48)) 0

def hexDigitChar (n : Nat) : Char :=
  if n < 10 then Char.ofNat (48 + n) else Char.ofNat (55 + n)

def utf8Bytes (c : Char) : List Nat :=
  if c.toNat < 128 then [c.toNat]
  else if c.toNat < 2048 then [192 + c.toNat / 64, 128 + c.toNat % 64]
  else if c.toNat < 65536 then
    [224 + c.toNat / 4096, 128 + (c.toNat / 64) % 64, 128 + c.toNat % 64]
  else
    [240 + c.toNat / 262144, 128 + (c.toNat / 4096) % 64, 128 + (c.toNat / 64) % 64,
      128 + c.toNat % 64]

def pctBytes : List Nat → List Char
  | [] => []
  | b :: bs => '%' :: hexDigitChar (b / 16) :: hexDigitChar (b % 16) :: pctBytes bs

def pctEncodeChar (c : Char) : List Char := pctBytes (utf8Bytes c)

def encodeWith (inSet : Char → Bool) : List Char → List Char
  | [] => []
  | c :: cs => (if inSet c then pctEncodeChar c else [c]) ++ encodeWith inSet cs

/-- WHATWG C0-control percent-encode set (C0 controls and everything above
`~`, which percent-encodes all non-ASCII via UTF-8). -/
def inC0OrHighSet (c : Char) : Bool := decide (c.toNat < 32 ∨ 126 < c.toNat)

/-- WHATWG query percent-encode set (non-special schemes). -/
def inQuerySet (c : Char) : Bool :=
  inC0OrHighSet c || c == ' ' || c == '"' || c == '<' || c == '>' || c == '#'

/-- Query percent-encode set for special schemes (adds the apostrophe). -/
def inQuerySpecialSet (c : Char) : Bool := inQuerySet c || c == aposChar

/-- WHATWG path percent-encode set. -/
def inPathSet (c : Char) : Bool :=
  inQuerySet c || c == '?' || c == backtickChar || c == lbraceChar || c == rbraceChar

/-- WHATWG userinfo percent-encode set. -/
def inUserinfoSet (c : Char) : Bool :=
  inPathSet c || c == '/' || c == ':' || c == ';' || c == '=' || c == '@' ||
    c == '[' || c == '\\' || c == ']' || c == '^' || c == '|'

/-- Forbidden domain code points (including JS whitespace, which the real
IDNA pass would reject or map away). -/
def forbiddenHostChar (c : Char) : Bool :=
  decide (c.toNat < 32) || decide (c.toNat = 127) || isJsWhitespace c ||
    c == ' ' || c == '#' || c == '/' || c == ':' || c == '<' || c == '>' ||
    c == '?' || c == '@' || c == '[' || c == '\\' || c == ']' || c == '^' ||
    c == '|' || c == '%'

structure UrlRec where
  scheme : List Char
  userinfo : List Char
  host : List Char
  port : Option Nat
  path : List Char
  query : Option (List Char)
  fragment : Option (List Char)
deriving DecidableEq

/-- Only the two schemes the plugin accepts are modelled as special; the
other WHATWG special schemes (ws, wss, ftp, file) are treated as opaque,
which the normalizers reject by protocol anyway. -/
def isSpecialScheme (s : List Char) : Bool := s == "http".data || s == "https".data

def isDefaultPort (scheme : List Char) (n : Nat) : Bool :=
  (scheme == "http".data && n == 80) || (scheme == "https".data && n == 443)

def isSchemeChar (c : Char) : Bool :=
  isAsciiAlpha c || isAsciiDigit c || c == '+' || c == '-' || c == '.'

def splitScheme (cs : List Char) : Option (List Char × List Char) :=
  match cs with
  | [] => none
  | c :: _ =>
    if isAsciiAlpha c then
      match cs.dropWhile isSchemeChar with
      | ':' :: tail => some (lowerStr (cs.takeWhile isSchemeChar), tail)
      | _ => none
    else none

def isAuthorityTerm (c : Char) : Bool := c == '/' || c == '\\' || c == '?' || c == '#'

def isPathTerm (c : Char) : Bool := c == '?' || c == '#'

/-- Port parsing: outer `none` is an invalid URL, inner `none` is "no port"
(also after stripping a default port). -/
def parsePort (scheme : List Char) : Option (List Char) → Option (Option Nat)
  | none => some none
  | some [] => some none
  | some ds =>
    if ds.all isAsciiDigit then
      let n := decToNat ds
      if 65535 < n then none
      else if isDefaultPort scheme n then some none
      else some (some n)
    else none

def slashToSlash (c : Char) : Char := if c = '\\' then '/' else c

/-- Split `query?#fragment` material that follows the path. -/
def splitQueryFragment (querySet : Char → Bool) (afterPath : List Char) :
    Option (List Char) × Option (List Char) :=
  match afterPath with
  | [] => (none, none)
  | c :: restc =>
    if c = '?' then
      (some (encodeWith querySet (restc.takeWhile (fun x => x != '#'))),
        match restc.dropWhile (fun x => x != '#') with
        | _ :: f => some f
        | [] => none)
    else (none, some restc)

def parseSpecialRest (scheme rest : List Char) : Option UrlRec :=
  let rest₁ := rest.dropWhile (fun c => c == '/' || c == '\\')
  let authority := rest₁.takeWhile (fun c => !isAuthorityTerm c)
  let after := rest₁.dropWhile (fun c => !isAuthorityTerm c)
  let uiHost : List Char × List Char :=
    match splitAtLast '@' authority with
    | some (u, h) => (u, h)
    | none => ([], authority)
  let hostPort : List Char × Option (List Char) :=
    match splitAtLast ':' uiHost.2 with
    | some (h, p) => (h, some p)
    | none => (uiHost.2, none)
  let host := lowerStr hostPort.1
  if host = [] then none
  else if host.any forbiddenHostChar then none
  else
    match parsePort scheme hostPort.2 with
    | none => none
    | some port =>
      let pathRaw := after.takeWhile (fun c => !isPathTerm c)
      let afterPath := after.dropWhile (fun c => !isPathTerm c)
      let path :=
        if pathRaw = [] then ['/']
        else encodeWith inPathSet (pathRaw.map slashToSlash)
      let qf := splitQueryFragment inQuerySpecialSet afterPath
      some ⟨scheme, encodeWith inUserinfoSet uiHost.1, host, port, path, qf.1, qf.2⟩

/-- Trim of C0 controls and space applied by the URL parser. -/
def urlTrim (cs : List Char) : List Char :=
  ((cs.dropWhile (fun c => decide (c.toNat ≤ 32))).reverse.dropWhile
    (fun c => decide (c.toNat ≤ 32))).reverse

/-- Model of `new URL(input)` (absolute, no base).  Returns `none` where the
constructor throws. -/
def parseURL (cs₀ : List Char) : Option UrlRec :=
  let cs₁ := (urlTrim cs₀).filter (fun c => !(c.toNat == 9 || c.toNat == 10 || c.toNat == 13))
  match splitScheme cs₁ with
  | none => none
  | some (scheme, rest) =>
    if isSpecialScheme scheme then parseSpecialRest scheme rest
    else
      let pathRaw := rest.takeWhile (fun c => !isPathTerm c)
      let afterPath := rest.dropWhile (fun c => !isPathTerm c)
      let qf := splitQueryFragment inQuerySet afterPath
      some ⟨scheme, [], [], none, encodeWith inC0OrHighSet pathRaw, qf.1, qf.2⟩

/-- Model of `URL.prototype.toString` / `href`. -/
def serializeURL (r : UrlRec) : List Char :=
  if isSpecialScheme r.scheme then
    r.scheme ++ [':', '/', '/'] ++
      (if r.userinfo = [] then [] else r.userinfo ++ ['@']) ++ r.host ++
      (match r.port with
        | none => []
        | some n => ':' :: Fmt.natToDec n) ++
      r.path ++
      (match r.query with
        | none => []
        | some q => '?' :: q) ++
      (match r.fragment with
        | none => []
        | some f => '#' :: f)
  else
    r.scheme ++ [':'] ++ r.path ++
      (match r.query with
        | none => []
        | some q => '?' :: q) ++
      (match r.fragment with
        | none => []
        | some f => '#' :: f)

def protocol (r : UrlRec) : List Char := r.scheme ++ [':']

/-- Invariants of the record a successful `normalizeSingleUrl` serializes:
exactly what `parseURL` guarantees for an accepted http/https URL, with the
fragment already cleared.  Serialization round-trips on such records. -/
structure IsNormalized (r : UrlRec) : Prop where
  scheme_http : r.scheme = "http".data ∨ r.scheme = "https".data
  ui_ok : ∀ c ∈ r.userinfo, inUserinfoSet c = false
  host_ne : r.host ≠ []
  host_ok : ∀ c ∈ r.host, forbiddenHostChar c = false
  host_lower : lowerStr r.host = r.host
  port_ok : ∀ n ∈ r.port, n ≤ 65535 ∧ isDefaultPort r.scheme n = false
  path_ne : r.path ≠ []
  path_head : ∃ t, r.path = '/' :: t
  path_ok : ∀ c ∈ r.path, inPathSet c = false ∧ c ≠ '\\'
  query_ok : ∀ q ∈ r.query, ∀ c ∈ q, inQuerySpecialSet c = false
  frag_none : r.fragment = none

def parseUrlString (s : String) : Option UrlRec := parseURL s.data

def serializeUrlString (r : UrlRec) : String := String.mk (serializeURL r)

end Url

namespace Norm

/-! Embedding of the URL normalization / SSRF-guard layer.  The functions
`normalizeInputUrl`, `normalizeSingleUrl`, `isAllowedDomain`,
`isPrivateHostname`, `extractCandidateUrls` and `sanitizeExtractedUrl` are
duplicated per platform file in the source with identical logic except for
the allow-list (`BILI_DOMAINS` vs `XHS_DOMAINS`) and candidate extraction;
they are embedded once, parameterized accordingly. -/

/-- `^(10\.|127\.|169\.254\.|172\.(1[6-9]|2[0-9]|3[01])\.|192\.168\.)` -/
def private172 (cs : List Char) : Bool :=
  match cs with
  | '1' :: '7' :: '2' :: '.' :: a :: b :: c :: _ =>
    c == '.' &&
      ((a == '1' && decide (54 ≤ b.toNat ∧ b.toNat ≤ 57)) ||
        (a == '2' && Url.isAsciiDigit b) ||
        (a == '3' && (b == '0' || b == '1')))
  | _ => false

def privateIpTest (cs : List Char) : Bool :=
  Url.lStartsWith "10.".data cs || Url.lStartsWith "127.".data cs ||
    Url.lStartsWith "169.254.".data cs || private172 cs ||
    Url.lStartsWith "192.168.".data cs

/-- Embedding of `isPrivateHostname` (bili.ts / xhs.ts). -/
def isPrivateHostname (hostname : List Char) : Bool :=
  if hostname = [] then true
  else if hostname = "localhost".data then true
  else if privateIpTest hostname then true
  else Url.lEndsWith ".local".data hostname || Url.lEndsWith ".internal".data hostname

/-- Embedding of `isAllowedDomain`: the hostname equals an allow-listed
domain or is a subdomain of one. -/
def isAllowedDomain (domains : List (List Char)) (hostname : List Char) : Bool :=
  domains.any (fun d => hostname == d || Url.lEndsWith ('.' :: d) hostname)

def biliDomains : List (List Char) :=
  ["bilibili.com".data, "www.bilibili.com".data, "m.bilibili.com".data, "b23.tv".data,
    "bili22.cn".data, "bili23.cn".data, "bili33.cn".data, "bili2233.cn".data]

def xhsDomains : List (List Char) :=
  ["xiaohongshu.com".data, "www.xiaohongshu.com".data, "xhslink.com".data]

/-- `new URL(candidate)` with the `https://`-prefixed retry on failure. -/
def tryParseCandidate (candidate : List Char) : Option Url.UrlRec :=
  match Url.parseURL candidate with
  | some r => some r
  | none => Url.parseURL ("https://".data ++ candidate)

/-- Embedding of `normalizeSingleUrl`, kept at the record level (the source
mutates `parsed.hash` and serializes; this returns the record it
serializes). -/
def normalizeSingleUrlRec (domains : List (List Char)) (candidate : List Char) :
    Option Url.UrlRec :=
  if candidate = [] ∨ 2048 < candidate.length then none
  else
    match tryParseCandidate candidate with
    | none => none
    | some parsed =>
      if !(Url.protocol parsed == "http:".data || Url.protocol parsed == "https:".data) then
        none
      else
        let hostname := Url.lowerStr parsed.host
        if isPrivateHostname hostname then none
        else if !isAllowedDomain domains hostname then none
        else some { parsed with fragment := none }

def normalizeSingleUrl (domains : List (List Char)) (candidate : List Char) :
    Option (List Char) :=
  (normalizeSingleUrlRec domains candidate).map Url.serializeURL

/-- Case-insensitive literal prefix match; returns the matched original
characters and the remainder.  The pattern is given in lowercase. -/
def stripPrefixCi (pat cs : List Char) : Option (List Char × List Char) :=
  match pat, cs with
  | [], rest => some ([], rest)
  | _ :: _, [] => none
  | p :: ps, c :: cs₁ =>
    if Url.lowerChar c = p then
      match stripPrefixCi ps cs₁ with
      | some (m, r) => some (c :: m, r)
      | none => none
    else none

/-- One attempted match of `/https?:\/\/[^\s]+/i` at the head of `cs`:
`http`, then a greedy optional `s`, then `://`, then a nonempty run of
non-whitespace.  Returns the match and the rest of the input. -/
def urlMatchAt (cs : List Char) : Option (List Char × List Char) :=
  match stripPrefixCi "http".data cs with
  | none => none
  | some (m₁, r₁) =>
    let afterScheme : Option (List Char × List Char) :=
      match r₁ with
      | c :: r₂ =>
        if Url.lowerChar c = 's' then
          match stripPrefixCi "://".data r₂ with
          | some (m₂, r₃) => some (m₁ ++ c :: m₂, r₃)
          | none =>
            match stripPrefixCi "://".data r₁ with
            | some (m₂, r₃) => some (m₁ ++ m₂, r₃)
            | none => none
        else
          match stripPrefixCi "://".data r₁ with
          | some (m₂, r₃) => some (m₁ ++ m₂, r₃)
          | none => none
      | [] => none
    match afterScheme with
    | none => none
    | some (m, r₃) =>
      let run := r₃.takeWhile (fun c => !Url.isJsWhitespace c)
      if run = [] then none
      else some (m ++ run, r₃.dropWhile (fun c => !Url.isJsWhitespace c))

/-- All matches of the global regex `/https?:\/\/[^\s]+/gi` (leftmost,
non-overlapping, resuming after each match). -/
def urlMatchesAux : Nat → List Char → List (List Char)
  | 0, _ => []
  | _ + 1, [] => []
  | fuel + 1, c :: rest =>
    match urlMatchAt (c :: rest) with
    | some (m, after) => m :: urlMatchesAux fuel after
    | none => urlMatchesAux fuel rest

def urlMatches (cs : List Char) : List (List Char) := urlMatchesAux cs.length cs

/-- `TRAILING_PUNCTUATION_PATTERN` of bili.ts / xhs.ts. -/
def biliTrailingPunct (c : Char) : Bool :=
  c == ')' || c == ']' || c == Url.rbraceChar || c == '>' || c == '"' ||
    c == Url.aposChar || c == '!' || c == '?' || c == '.' || c == ','

def stripTrailing (p : Char → Bool) (cs : List Char) : List Char :=
  (cs.reverse.dropWhile p).reverse

/-- Embedding of `sanitizeExtractedUrl` (bili.ts; the xhs variant
additionally decodes HTML entities and is defined with the xhs miner). -/
def sanitizeExtractedUrlBili (raw : List Char) : Option (List Char) :=
  if raw = [] then none
  else
    let trimmed := Url.jsTrim (stripTrailing biliTrailingPunct raw)
    if trimmed = [] then none else some trimmed

/-- Embedding of `extractCandidateUrls` (bili.ts). -/
def extractCandidateUrlsBili (text : List Char) : List (List Char) :=
  (urlMatches text).filterMap sanitizeExtractedUrlBili

/-- Embedding of `normalizeInputUrl`: trim, direct parse when short enough,
otherwise the first candidate that normalizes. -/
def normalizeInputUrl (domains : List (List Char))
    (extractor : List Char → List (List Char)) (input : List Char) : Option (List Char) :=
  if input = [] then none
  else
    let trimmed := Url.jsTrim input
    if trimmed = [] then none
    else
      match (if trimmed.length ≤ 2048 then normalizeSingleUrl domains trimmed else none) with
      | some direct => some direct
      | none => (extractor trimmed).findSome? (normalizeSingleUrl domains)

/-- `normalizeSingleUrl` of bili.ts on `String`. -/
def biliNormalizeSingleUrl (candidate : String) : Option String :=
  (normalizeSingleUrl biliDomains candidate.data).map String.mk

/-- `normalizeSingleUrl` of xhs.ts on `String`. -/
def xhsNormalizeSingleUrl (candidate : String) : Option String :=
  (normalizeSingleUrl xhsDomains candidate.data).map String.mk

/-- `normalizeInputUrl` of bili.ts on `String`. -/
def biliNormalizeInputUrl (input : String) : Option String :=
  (normalizeInputUrl biliDomains extractCandidateUrlsBili input.data).map String.mk

end Norm

def c1PrivateRec : Url.UrlRec :=
  ⟨"http".data, [], "127.0.0.1".data, none, ['/'], none, none⟩

def c1MixedInput : String := "http://127.0.0.1 https://www.bilibili.com/video/BV1xx4y1x7Nq"

def aRun : List Char := List.replicate 2023 'a'

def u2048 : String := String.mk ("https://www.bilibili.com?".data ++ aRun)

def v2049 : String := String.mk ("https://www.bilibili.com/?".data ++ aRun)

def cexRec : Url.UrlRec :=
  ⟨"https".data, [], "www.bilibili.com".data, none, ['/'], some aRun, none⟩

namespace Msg

/-! Message-building layer shared by the two bilibili renderer variants
(`src/bili.ts` and the standalone variant in `unnamed/part_002`).  Only the
segment shapes this plugin emits are modelled.  Strings are code-point
sequences, so `.length`/`.slice` agree with JS except across surrogate
pairs, which no claim exercises. -/

inductive MessageSegment : Type
  | text (text : String)
  | image (url : String)
  | video (file : String)
deriving DecidableEq

structure ForwardMessage where
  userId : String
  userName : String
  segments : List MessageSegment
deriving DecidableEq

structure BiliStats where
  view : Option Int
  like : Option Int
  coin : Option Int
  favorite : Option Int
  share : Option Int
  danmaku : Option Int
deriving DecidableEq

/-- JS `value.trim()` on a `String`. -/
def strTrim (s : String) : String := String.mk (Url.jsTrim s.data)

/-- JS `value.trimEnd()`. -/
def strTrimEnd (s : String) : String :=
  String.mk ((s.data.reverse.dropWhile Url.isJsWhitespace).reverse)

/-- Embedding of `truncateText` (identical in bili.ts and part_002). -/
def truncateText (value : String) (maxLength : Nat) : String :=
  let trimmed := strTrim value
  if trimmed = "" then ""
  else if trimmed.data.length ≤ maxLength then trimmed
  else strTrimEnd (String.mk (trimmed.data.take maxLength)) ++ "..."

/-- Embedding of `simplifyUrl`: on a parsable URL, protocol + host (with any
explicit port) + pathname; on a parse failure the input unchanged. -/
def simplifyUrl (url : String) : String :=
  match Url.parseURL url.data with
  | none => url
  | some r =>
    String.mk (Url.protocol r ++ '/' :: '/' :: (r.host ++
      (match r.port with
       | some p => ':' :: Fmt.natToDec p
       | none => []) ++ r.path))

/-- JS `Array.prototype.join(sep)`. -/
def joinSep (sep : String) : List String → String
  | [] => ""
  | [x] => x
  | x :: y :: xs => x ++ sep ++ joinSep sep (y :: xs)

/-- Embedding of `formatBiliStats` (identical in both variants). -/
def formatBiliStats : Option BiliStats → String
  | none => ""
  | some stats =>
    let parts : List String :=
      (match stats.view with | some v => ["播放 " ++ Fmt.formatCount v] | none => []) ++
      (match stats.like with | some v => ["赞 " ++ Fmt.formatCount v] | none => []) ++
      (match stats.coin with | some v => ["投币 " ++ Fmt.formatCount v] | none => []) ++
      (match stats.favorite with | some v => ["收藏 " ++ Fmt.formatCount v] | none => []) ++
      (match stats.share with | some v => ["转发 " ++ Fmt.formatCount v] | none => []) ++
      (match stats.danmaku with | some v => ["弹幕 " ++ Fmt.formatCount v] | none => [])
    if parts = [] then "" else "数据：" ++ joinSep " / " parts

end Msg

namespace BiliSrc

/-- `BiliVideo` of `src/bili.ts`.  Optional fields are `Option`; the JS
truthiness test of an optional string (absent or empty) is spelled out. -/
structure BiliVideo where
  title : String
  description : String
  coverImage : Option String
  url : String
  upName : Option String
  stats : Option Msg.BiliStats
deriving DecidableEq

/-- Embedding of `formatBiliText` (src/bili.ts variant: title, author,
description, stats, link). -/
def formatBiliText (video : BiliVideo) : String :=
  let title := Msg.strTrim video.title
  let description := Msg.truncateText video.description 260
  let stats := Msg.formatBiliStats video.stats
  let segments : List String :=
    ["标题：" ++ (if title = "" then "未能获取标题" else title)] ++
    (match video.upName with
     | some u => if u = "" then [] else ["UP主：" ++ u]
     | none => []) ++
    (if description = "" then [] else ["简介：" ++ description]) ++
    (if stats = "" then [] else [stats]) ++
    ["链接：" ++ Msg.simplifyUrl video.url]
  Msg.joinSep "\n\n" segments

/-- Embedding of `buildForwardMessagesForBili` (src/bili.ts variant): the
text message is pushed first; the cover image, when present, second. -/
def buildForwardMessagesForBili (video : BiliVideo) (senderId : String) :
    List Msg.ForwardMessage :=
  ⟨senderId, "B站解析", [Msg.MessageSegment.text (formatBiliText video)]⟩ ::
    (match video.coverImage with
     | some cover =>
       if cover = "" then []
       else [⟨senderId, "B站解析", [Msg.MessageSegment.image cover]⟩]
     | none => [])

end BiliSrc

namespace BiliFull

structure BiliPlayInfo where
  url : String
deriving DecidableEq

structure BiliDownloadInfo where
  url : String
deriving DecidableEq

/-- `BiliVideo` of the standalone plugin variant (`unnamed/part_002`), with
the extra id/duration/date/zone/media fields. -/
structure BiliVideo where
  title : String
  description : String
  coverImage : Option String
  url : String
  upName : Option String
  bvid : Option String
  aid : Option Int
  cid : Option Int
  duration : Option Int
  pubDate : Option Int
  zoneName : Option String
  stats : Option Msg.BiliStats
  play : Option BiliPlayInfo
  download : Option BiliDownloadInfo
deriving DecidableEq

/-- Embedding of `pad2`. -/
def pad2 (value : Int) : String :=
  if value < 10 then "0" ++ Fmt.intToString value else Fmt.intToString value

/-- Embedding of `formatDuration` (the input is an integer number of
seconds, so `Math.floor` is the identity and `Math.max(0, ·)` is `toNat`). -/
def formatDuration (seconds : Int) : String :=
  let total : Nat := seconds.toNat
  let hours := total / 3600
  let minutes := (total % 3600) / 60
  let remainSeconds := total % 60
  if 0 < hours then
    Fmt.intToString hours ++ ":" ++ pad2 minutes ++ ":" ++ pad2 remainSeconds
  else
    Fmt.intToString minutes ++ ":" ++ pad2 remainSeconds

/-- Civil date from days since the Unix epoch (Hinnant's algorithm with the
same truncating integer division the JS `Date` accessors perform; the host
timezone is modelled as UTC). -/
def civilFromDays (z : Int) : Int × Nat × Nat :=
  let zz : Int := z + 719468
  let era : Int := (if 0 ≤ zz then zz else zz - 146096) / 146097
  let doe : Nat := (zz - era * 146097).toNat
  let yoe : Nat := (doe - doe / 1460 + doe / 36524 - doe / 146096) / 365
  let doy : Nat := doe - (365 * yoe + yoe / 4 - yoe / 100)
  let mp : Nat := (5 * doy + 2) / 153
  let d : Nat := doy - (153 * mp + 2) / 5 + 1
  let m : Nat := if mp < 10 then mp + 3 else mp - 9
  ((yoe : Int) + era * 400 + (if m ≤ 2 then 1 else 0), m, d)

/-- Embedding of `formatDate` on an epoch-seconds timestamp. -/
def formatDate (timestamp : Int) : String :=
  let days := Int.fdiv timestamp 86400
  let ymd := civilFromDays days
  Fmt.intToString ymd.1 ++ "-" ++ pad2 (ymd.2.1 : Int) ++ "-" ++ pad2 (ymd.2.2 : Int)

/-- Embedding of `formatBiliIds`. -/
def formatBiliIds (video : BiliVideo) : String :=
  let parts : List String :=
    (match video.bvid with
     | some b => if b = "" then [] else [b]
     | none => []) ++
    (match video.aid with
     | some a => ["av" ++ Fmt.intToString a]
     | none => [])
  if parts = [] then "" else "编号：" ++ Msg.joinSep " / " parts

/-- Embedding of `formatBiliDetail`. -/
def formatBiliDetail (video : BiliVideo) : String :=
  let parts : List String :=
    (match video.duration with
     | some s => ["时长 " ++ formatDuration s]
     | none => []) ++
    (match video.pubDate with
     | some t => ["发布 " ++ formatDate t]
     | none => []) ++
    (match video.zoneName with
     | some z => if z = "" then [] else ["分区 " ++ z]
     | none => [])
  if parts = [] then "" else "信息：" ++ Msg.joinSep " / " parts

/-- Embedding of `formatBiliMediaLinks`. -/
def formatBiliMediaLinks (video : BiliVideo) : String :=
  let parts : List String :=
    (match video.play with
     | some p => if p.url = "" then [] else ["播放直链：" ++ p.url]
     | none => []) ++
    (match video.download with
     | some d =>
       if d.url = "" then []
       else if (match video.play with | some p => d.url == p.url | none => false) then []
       else ["下载链接：" ++ d.url]
     | none => [])
  if parts = [] then "" else Msg.joinSep "\n\n" parts

/-- Embedding of `formatBiliText` (part_002 variant: title, ids, author,
detail, description, stats, link). -/
def formatBiliText (video : BiliVideo) : String :=
  let title := Msg.strTrim video.title
  let ids := formatBiliIds video
  let detail := formatBiliDetail video
  let description := Msg.truncateText video.description 260
  let stats := Msg.formatBiliStats video.stats
  let segments : List String :=
    ["标题：" ++ (if title = "" then "未能获取标题" else title)] ++
    (if ids = "" then [] else [ids]) ++
    (match video.upName with
     | some u => if u = "" then [] else ["UP主：" ++ u]
     | none => []) ++
    (if detail = "" then [] else [detail]) ++
    (if description = "" then [] else ["简介：" ++ description]) ++
    (if stats = "" then [] else [stats]) ++
    ["链接：" ++ Msg.simplifyUrl video.url]
  Msg.joinSep "\n\n" segments

/-- Embedding of `buildForwardMessagesForBili` (part_002 variant).  The
network/filesystem effect of `maybeDownloadBiliVideo` is an oracle
argument: the local file path when a download succeeded, `none` otherwise. -/
def buildForwardMessagesForBili (video : BiliVideo) (senderId : String)
    (downloaded : Option String) : List Msg.ForwardMessage :=
  (match video.coverImage with
   | some cover =>
     if cover = "" then []
     else [⟨senderId, "B站解析", [Msg.MessageSegment.image cover]⟩]
   | none => []) ++
  [⟨senderId, "B站解析", [Msg.MessageSegment.text (formatBiliText video)]⟩] ++
  (match downloaded with
   | some f =>
     if f = "" then []
     else [⟨senderId, "B站解析", [Msg.MessageSegment.video f]⟩]
   | none => []) ++
  (let linkText := formatBiliMediaLinks video
   if linkText = "" then []
   else [⟨senderId, "B站解析", [Msg.MessageSegment.text linkText]⟩])

end BiliFull

def c4FullVideo : BiliFull.BiliVideo :=
  { title := "T", description := "D",
    coverImage := some "https://i0.hdslb.com/c.jpg",
    url := "https://www.bilibili.com/video/BV1xx4y1x7Nq",
    upName := none, bvid := none, aid := none, cid := none,
    duration := none, pubDate := none, zoneName := none,
    stats := none, play := none, download := none }

def c4SrcVideo : BiliSrc.BiliVideo :=
  { title := "T", description := "D",
    coverImage := some "https://i0.hdslb.com/c.jpg",
    url := "https://www.bilibili.com/video/BV1xx4y1x7Nq",
    upName := none, stats := none }

/-- Parsed JSON values.  JSON numbers appear in this program only as API
status codes and integer statistics, so they are modelled as integers. -/
inductive Json : Type
  | null
  | bool (b : Bool)
  | num (v : Int)
  | str (s : String)
  | arr (items : List Json)
  | obj (fields : List (String × Json))

namespace Json

/-- Property lookup on parsed-object fields; `JSON.parse` keeps the last
occurrence of a duplicated key, so the last binding wins. -/
def jget (fields : List (String × Json)) (key : String) : Option Json :=
  match fields with
  | [] => none
  | (k, v) :: rest =>
    match jget rest key with
    | some w => some w
    | none => if k = key then some v else none

/-- Property access `j[key]`: `undefined` (`none`) on non-objects. -/
def jfield : Json → String → Option Json
  | obj fields, key => jget fields key
  | _, _ => none

/-- JS truthiness of a parsed JSON value (JSON cannot produce `NaN`). -/
def truthy : Json → Bool
  | null => false
  | bool b => b
  | num v => !(v == 0)
  | str s => !(s == "")
  | arr _ => true
  | obj _ => true

/-- Whether `typeof j` is the string `'object'`. -/
def typeofIsObject : Json → Bool
  | null => true
  | arr _ => true
  | obj _ => true
  | _ => false

end Json

namespace Api

/-! Embedding of `fetchJson` and the response handling of
`fetchBiliVideoFromId` (src/bili.ts).  The two network attempts are oracle
arguments: `Except.ok j` when `fetch` succeeded with `response.ok` and the
body parsed as JSON `j`, `Except.error e` when the attempt threw (network
failure, non-2xx status, or a JSON parse error).  The inter-attempt delay
has no observable effect on the returned value and is not modelled. -/

inductive IdType : Type
  | bv
  | av
deriving DecidableEq

/-- Embedding of `fetchJson`: return the first successful attempt; after
two failures rethrow the last error. -/
def fetchJson (a1 a2 : Except String Json) : Except String Json :=
  match a1 with
  | Except.ok v => Except.ok v
  | Except.error _ =>
    match a2 with
    | Except.ok v => Except.ok v
    | Except.error e => Except.error e

def asStr (v : Option Json) : Option String :=
  match v with
  | some (Json.str s) => some s
  | _ => none

def asNum (v : Option Json) : Option Int :=
  match v with
  | some (Json.num n) => some n
  | _ => none

/-- Construction of the `BiliVideo` result from the truthy `data` payload
(`info`), mirroring the field-by-field `typeof` checks. -/
def buildVideoFromPayload (idType : IdType) (id : String) (info : Json) :
    BiliSrc.BiliVideo :=
  let bvid := match Json.jfield info "bvid" with
    | some (Json.str s) => s
    | _ => ""
  let aid : Option Int := asNum (Json.jfield info "aid")
  let fallbackUrl := match idType with
    | IdType.bv => "https://www.bilibili.com/video/" ++ id
    | IdType.av => "https://www.bilibili.com/video/av" ++ id
  let url :=
    if bvid ≠ "" then "https://www.bilibili.com/video/" ++ bvid
    else match aid with
      | some a =>
        if a == 0 then fallbackUrl
        else "https://www.bilibili.com/video/av" ++ Fmt.intToString a
      | none => fallbackUrl
  let stat := match Json.jfield info "stat" with
    | some Json.null => Json.obj []
    | some s => s
    | none => Json.obj []
  { title := match Json.jfield info "title" with
      | some (Json.str s) => s
      | _ => ""
    description := match Json.jfield info "desc" with
      | some (Json.str s) => s
      | _ => ""
    coverImage := asStr (Json.jfield info "pic")
    url := url
    upName := asStr (match Json.jfield info "owner" with
      | some o => Json.jfield o "name"
      | none => none)
    stats := some
      { view := asNum (Json.jfield stat "view")
        like := asNum (Json.jfield stat "like")
        coin := asNum (Json.jfield stat "coin")
        favorite := asNum (Json.jfield stat "favorite")
        share := asNum (Json.jfield stat "share")
        danmaku := asNum (Json.jfield stat "danmaku") } }

/-- Embedding of `fetchBiliVideoFromId`: thrown errors are `Except.error`,
the JS `null` result is `Except.ok none`.  (`encodeURIComponent` only
shapes the outgoing request URL, which the oracles abstract.) -/
def fetchBiliVideoFromId (idType : IdType) (id : String)
    (a1 a2 : Except String Json) : Except String (Option BiliSrc.BiliVideo) :=
  match fetchJson a1 a2 with
  | Except.error e => Except.error e
  | Except.ok data =>
    if !(Json.truthy data) || !(Json.typeofIsObject data) then Except.ok none
    else
      match Json.jfield data "code", Json.jfield data "data" with
      | some (Json.num c), some d =>
        if c = 0 && Json.truthy d then
          Except.ok (some (buildVideoFromPayload idType id d))
        else Except.ok none
      | _, _ => Except.ok none

end Api

namespace Xhs

/-! Embedding of the xhs.ts HTML miner.  The `JSON.parse` builtin is an
explicit oracle argument `jp : String → Option Json` (`none` models a
thrown-and-caught parse error), threaded through `safeJsonParse` callers;
every claim below holds for an arbitrary oracle.  Regex searches are
modelled by explicit scanners over the code-point list. -/

/-- First index at or after `start` where `needle` occurs
(`String.prototype.indexOf(needle, start)`). -/
def strIndexOfAux (needle : List Char) : Nat → List Char → Option Nat
  | i, [] => if needle = [] then some i else none
  | i, c :: rest =>
    if Url.lStartsWith needle (c :: rest) then some i
    else strIndexOfAux needle (i + 1) rest

def strIndexOf (cs needle : List Char) (start : Nat) : Option Nat :=
  (strIndexOfAux needle 0 (cs.drop start)).map (· + start)

/-- `hay.includes(needle)`. -/
def strIncludes (hay needle : List Char) : Bool :=
  match hay with
  | [] => needle == []
  | c :: rest => Url.lStartsWith needle (c :: rest) || strIncludes rest needle

/-- Split `cs` at the first (case-insensitive) occurrence of `needle`
(given in lowercase): the part before and the part after the needle. -/
def splitAtSubCi (needle : List Char) : List Char → Option (List Char × List Char)
  | [] => if needle = [] then some ([], []) else none
  | c :: rest =>
    match Norm.stripPrefixCi needle (c :: rest) with
    | some (_, r) => some ([], r)
    | none =>
      match splitAtSubCi needle rest with
      | some (pre, post) => some (c :: pre, post)
      | none => none

/-- The balanced-delimiter scanner shared by `extractJsonArray` and
`extractJsonAssignment`: a depth counter over `o`/`cl` that ignores
delimiters inside single- or double-quoted strings with
backslash-escaping.  Returns the number of characters consumed up to and
including the closing delimiter that brings the depth to zero. -/
def scanBalanced (o cl : Char) : List Char → Int → Bool → Bool → Char → Option Nat
  | [], _, _, _, _ => none
  | c :: rest, depth, inString, escapeNext, quoteChar =>
    if inString then
      if escapeNext then (scanBalanced o cl rest depth true false quoteChar).map (· + 1)
      else if c == '\\' then (scanBalanced o cl rest depth true true quoteChar).map (· + 1)
      else if c == quoteChar then
        (scanBalanced o cl rest depth false false quoteChar).map (· + 1)
      else (scanBalanced o cl rest depth true false quoteChar).map (· + 1)
    else if c == '"' || c == '\'' then
      (scanBalanced o cl rest depth true false c).map (· + 1)
    else if c == o then
      (scanBalanced o cl rest (depth + 1) false false quoteChar).map (· + 1)
    else if c == cl then
      if depth - 1 = 0 then some 1
      else (scanBalanced o cl rest (depth - 1) false false quoteChar).map (· + 1)
    else (scanBalanced o cl rest depth false false quoteChar).map (· + 1)

/-- Embedding of `extractJsonArray` (xhs.ts): scan from `startIndex` and
slice through the bracket that balances. -/
def extractJsonArray (html : String) (startIndex : Nat) : Option String :=
  (scanBalanced '[' ']' (html.data.drop startIndex) 0 false false (Char.ofNat 0)).map
    (fun cnt => String.mk ((html.data.drop startIndex).take cnt))

/-- Embedding of `extractJsonAssignment` (xhs.ts): find the marker, the
next `=`, the next opening brace, then scan to the balancing brace. -/
def extractJsonAssignment (html marker : String) : Option String :=
  match strIndexOf html.data marker.data 0 with
  | none => none
  | some idx =>
    match strIndexOf html.data ['='] idx with
    | none => none
    | some eqIdx =>
      match strIndexOf html.data [Char.ofNat 123] eqIdx with
      | none => none
      | some start =>
        (scanBalanced (Char.ofNat 123) (Char.ofNat 125) (html.data.drop start)
            0 false false (Char.ofNat 0)).map
          (fun cnt => String.mk ((html.data.drop start).take cnt))

/-- One step of the quote-and-escape string-state machine the spec
describes: `none` means outside any quoted string, `some (q, esc)` means
inside a string opened with quote `q` with `esc` recording a pending
backslash escape. -/
def stringStep (st : Option (Char × Bool)) (c : Char) : Option (Char × Bool) :=
  match st with
  | some (q, true) => some (q, false)
  | some (q, false) =>
    if c == '\\' then some (q, true)
    else if c == q then none
    else some (q, false)
  | none => if c == '"' || c == '\'' then some (c, false) else none

/-- Specification-side matching-close index: fold over the characters
keeping the string state, the depth over `o`/`cl` counted only outside
strings, the position, and the first position at which a closing
delimiter outside a string brings the depth to zero. -/
def closeStep (o cl : Char)
    (acc : Option (Char × Bool) × Int × Nat × Option Nat) (c : Char) :
    Option (Char × Bool) × Int × Nat × Option Nat :=
  match acc with
  | (st, d, i, some r) => (stringStep st c, d, i + 1, some r)
  | (st, d, i, none) =>
    match st with
    | some s => (stringStep (some s) c, d, i + 1, none)
    | none =>
      if c == '"' || c == '\'' then (some (c, false), d, i + 1, none)
      else if c == o then (none, d + 1, i + 1, none)
      else if c == cl then
        (none, d - 1, i + 1, if d - 1 = 0 then some i else none)
      else (none, d, i + 1, none)

/-- The index of the closing delimiter matching the spec's description:
the first position where a closing delimiter occurring outside any
quoted string (with backslash escaping respected) brings the
open/close depth to zero; `none` when the delimiters never balance. -/
def matchingCloseIdx (o cl : Char) (cs : List Char) : Option Nat :=
  (cs.foldl (closeStep o cl) (none, 0, 0, none)).2.2.2

/-- Hex-digit test for the entity class `[0-9a-f]` under the `i` flag. -/
def isHexChar (c : Char) : Bool :=
  Url.isAsciiDigit c || (97 ≤ (Url.lowerChar c).toNat && (Url.lowerChar c).toNat ≤ 102)

def hexCharVal (c : Char) : Nat :=
  if Url.isAsciiDigit c then c.toNat - 48 else (Url.lowerChar c).toNat - 87

/-- JS `\w` word-character class. -/
def isWordChar (c : Char) : Bool :=
  Url.isAsciiDigit c || (65 ≤ c.toNat && c.toNat ≤ 90) ||
    (97 ≤ c.toNat && c.toNat ≤ 122) || c == '_'

/-- `parseInt(s, base)`: parse the longest valid-digit prefix; `none` is
`NaN` (no leading digit). -/
def parseIntPrefix (base : Nat) (isDigit : Char → Bool) (val : Char → Nat)
    (cs : List Char) : Option Nat :=
  match cs.takeWhile isDigit with
  | [] => none
  | ds => some (ds.foldl (fun a c => a * base + val c) 0)

/-- `HTML_ENTITY_MAP` of xhs.ts. -/
def htmlEntityMap (name : List Char) : Option (List Char) :=
  if name = "amp".data then some ['&']
  else if name = "lt".data then some ['<']
  else if name = "gt".data then some ['>']
  else if name = "quot".data then some ['"']
  else if name = "apos".data then some [Url.aposChar]
  else if name = "nbsp".data then some [' ']
  else none

/-- One attempted match of `HTML_ENTITY_REGEX` at a position known to hold
`&`: the replacement text and the input remaining after the entity.
`String.fromCodePoint` on a surrogate code point, which our code-point
strings cannot represent, is treated like its thrown-RangeError branch
(the entity is left in place); no claim exercises such an entity. -/
def entityAt (afterAmp : List Char) : Option (List Char × List Char) :=
  match afterAmp with
  | '#' :: r₁ =>
    let isHex := match r₁ with
      | c :: _ => Url.lowerChar c == 'x'
      | [] => false
    let digits := if isHex then (r₁.drop 1).takeWhile isHexChar
      else r₁.takeWhile isHexChar
    let rest := if isHex then (r₁.drop 1).dropWhile isHexChar
      else r₁.dropWhile isHexChar
    match digits, rest with
    | [], _ => none
    | _, ';' :: after =>
      let entity := '#' :: (if isHex then 'x' :: digits else digits)
      let cp := parseIntPrefix (if isHex then 16 else 10)
        (fun c => if isHex then isHexChar c else Url.isAsciiDigit c)
        hexCharVal (if isHex then digits else digits)
      match cp with
      | none => some ('&' :: entity ++ [';'], after)
      | some n =>
        if n < 55296 ∨ (57344 ≤ n ∧ n ≤ 1114111) then
          some ([Char.ofNat n], after)
        else some ('&' :: entity ++ [';'], after)
    | _, _ => none
  | _ =>
    let word := afterAmp.takeWhile isWordChar
    match word, afterAmp.dropWhile isWordChar with
    | [], _ => none
    | _, ';' :: after =>
      match htmlEntityMap (Url.lowerStr word) with
      | some mapped => some (mapped, after)
      | none => some ('&' :: word ++ [';'], after)
    | _, _ => none

def decodeEntitiesAux : Nat → List Char → List Char
  | 0, cs => cs
  | _ + 1, [] => []
  | fuel + 1, '&' :: rest =>
    match entityAt rest with
    | some (rep, after) => rep ++ decodeEntitiesAux fuel after
    | none => '&' :: decodeEntitiesAux fuel rest
  | fuel + 1, c :: rest => c :: decodeEntitiesAux fuel rest

/-- Embedding of `decodeHtmlEntities`. -/
def decodeHtmlEntities (cs : List Char) : List Char :=
  if cs = [] then cs
  else if strIncludes cs ['&'] = false then cs
  else decodeEntitiesAux cs.length cs

/-- Quote–key–quote fragment of the attribute patterns: one of the two
quote characters, the key (case-insensitively), then either quote (the
two quote classes are independent in the source regexes). -/
def quoteKeyAt (key cs : List Char) : Bool :=
  match cs with
  | c :: r₁ =>
    if c == '"' || c == '\'' then
      match Norm.stripPrefixCi key r₁ with
      | some (_, c₂ :: _) => c₂ == '"' || c₂ == '\''
      | _ => false
    else false
  | [] => false

/-- Whether one of the attribute names, `=`, and the quoted key occur at
the head of `cs` (all case-insensitively; names and key in lowercase). -/
def attrHit (names : List (List Char)) (key cs : List Char) : Bool :=
  names.any (fun nm =>
    match Norm.stripPrefixCi (nm ++ ['=']) cs with
    | some (_, r) => quoteKeyAt key r
    | none => false)

def anySuffix (p : List Char → Bool) : List Char → Bool
  | [] => p []
  | c :: rest => p (c :: rest) || anySuffix p rest

/-- One attempted match of a `<tag ... attr=["']key["'] ... >` opening-tag
regex at the head of `cs`: `tag` (for example `<meta`) case-insensitively,
then at least `minOff` characters of `[^>]`, an attribute hit, more `[^>]`
characters, and the closing `>`.  Returns the matched tag text and the
input after the `>`. -/
def tryTagAt (tag : List Char) (names : List (List Char)) (key : List Char)
    (minOff : Nat) (cs : List Char) : Option (List Char × List Char) :=
  match Norm.stripPrefixCi tag cs with
  | none => none
  | some (m, r) =>
    let body := r.takeWhile (fun c => !(c == '>'))
    match r.dropWhile (fun c => !(c == '>')) with
    | [] => none
    | _ :: afterGt =>
      if anySuffix (attrHit names key) (body.drop minOff) then
        some (m ++ body ++ ['>'], afterGt)
      else none

/-- Scan every position for the first hit of `f` (regex `match`). -/
def findFirstPos {α : Type} (f : List Char → Option α) : List Char → Option α
  | [] => f []
  | c :: rest =>
    match f (c :: rest) with
    | some a => some a
    | none => findFirstPos f rest

/-- The `content=(?:"([^"]*)"|'([^']*)')` group at the head of `cs`. -/
def contentAt (cs : List Char) : Option (List Char) :=
  match Norm.stripPrefixCi "content=".data cs with
  | none => none
  | some (_, r) =>
    match r with
    | '"' :: r₁ =>
      if r₁.dropWhile (fun c => !(c == '"')) = [] then none
      else some (r₁.takeWhile (fun c => !(c == '"')))
    | '\'' :: r₁ =>
      if r₁.dropWhile (fun c => !(c == '\'')) = [] then none
      else some (r₁.takeWhile (fun c => !(c == '\'')))
    | _ => none

/-- Embedding of `extractMeta`: find the first
`<meta[^>]+(?:property|name)=["']key["'][^>]*>` tag, then the first
`content` attribute inside the matched tag; empty content is `null`. -/
def extractMeta (html key : String) : Option String :=
  match findFirstPos
      (tryTagAt "<meta".data ["property".data, "name".data]
        (Url.lowerStr key.data) 1) html.data with
  | none => none
  | some (tag, _) =>
    match findFirstPos contentAt tag with
    | none => none
    | some g =>
      if g = [] then none
      else some (String.mk (decodeHtmlEntities (Url.jsTrim g)))

/-- One attempted match of `<title[^>]*>([\s\S]*?)<\/title>` at the head
of `cs`. -/
def tryTitleAt (cs : List Char) : Option (List Char) :=
  match Norm.stripPrefixCi "<title".data cs with
  | none => none
  | some (_, r) =>
    match r.dropWhile (fun c => !(c == '>')) with
    | [] => none
    | _ :: afterGt =>
      match splitAtSubCi "</title>".data afterGt with
      | some (pre, _) => some pre
      | none => none

/-- Embedding of `extractTitle`. -/
def extractTitle (html : String) : Option String :=
  (findFirstPos tryTitleAt html.data).map
    (fun g => String.mk (decodeHtmlEntities (Url.jsTrim g)))

/-- One attempted match of the `extractJsonScriptById` pattern, returning
the captured script body. -/
def tryScriptIdAt (id cs : List Char) : Option (List Char) :=
  match tryTagAt "<script".data ["id".data] id 1 cs with
  | none => none
  | some (_, afterGt) =>
    match splitAtSubCi "</script>".data afterGt with
    | some (pre, _) => some pre
    | none => none

/-- Embedding of `extractJsonScriptById`. -/
def extractJsonScriptById (html id : String) (jp : String → Option Json) :
    Option Json :=
  match findFirstPos (tryScriptIdAt (Url.lowerStr id.data)) html.data with
  | none => none
  | some g =>
    let content := Url.jsTrim g
    if content = [] then none else jp (String.mk content)

/-- One attempted match of the JSON-LD script pattern, returning the
captured body and the input after the closing tag (for `/g` resumption). -/
def tryLdScriptAt (cs : List Char) : Option (List Char × List Char) :=
  match tryTagAt "<script".data ["type".data] "application/ld+json".data 0 cs with
  | none => none
  | some (_, afterGt) => splitAtSubCi "</script>".data afterGt

def ldMatchesAux : Nat → List Char → List (List Char)
  | 0, _ => []
  | _ + 1, [] => []
  | fuel + 1, c :: rest =>
    match tryLdScriptAt (c :: rest) with
    | some (g, after) => g :: ldMatchesAux fuel after
    | none => ldMatchesAux fuel rest

/-- `isUsefulJsonLd`. -/
def isUsefulJsonLd (fields : List (String × Json)) : Bool :=
  ["headline", "name", "description", "articleBody", "image"].any
    (fun k => match Json.jget fields k with
      | some v => Json.truthy v
      | none => false)

/-- `findJsonLdCandidate`.  The fuel only bounds the `@graph`/array
descent; it is called with the `sizeOf` of the value, which the strictly
decreasing recursion never exhausts. -/
def findJsonLdCandidateF : Nat → Json → Option Json
  | 0, _ => none
  | fuel + 1, j =>
    if Json.truthy j = false then none
    else match j with
      | Json.arr items => items.findSome? (findJsonLdCandidateF fuel)
      | Json.obj fields =>
        let viaGraph := match Json.jget fields "@graph" with
          | some g =>
            if Json.truthy g then findJsonLdCandidateF fuel g else none
          | none => none
        match viaGraph with
        | some c => some c
        | none =>
          if isUsefulJsonLd fields then some (Json.obj fields) else none
      | _ => none

mutual

def jsonSize : Json → Nat
  | Json.null => 1
  | Json.bool _ => 1
  | Json.num _ => 1
  | Json.str _ => 1
  | Json.arr items => 1 + jsonSizeL items
  | Json.obj fields => 1 + jsonSizeF fields

def jsonSizeL : List Json → Nat
  | [] => 0
  | j :: rest => jsonSize j + jsonSizeL rest

def jsonSizeF : List (String × Json) → Nat
  | [] => 0
  | p :: rest => jsonSize p.2 + jsonSizeF rest

end

def findJsonLdCandidate (j : Json) : Option Json :=
  findJsonLdCandidateF (jsonSize j) j

/-- Embedding of `extractJsonLd`: iterate the JSON-LD script matches,
returning the first parsed candidate. -/
def extractJsonLd (html : String) (jp : String → Option Json) : Option Json :=
  (ldMatchesAux html.data.length html.data).findSome? (fun g =>
    let content := Url.jsTrim g
    if content = [] then none
    else match jp (String.mk content) with
      | none => none
      | some parsed => findJsonLdCandidate parsed)

/-- Embedding of `firstString` applied to the given property values. -/
def firstString (values : List (Option Json)) : Option String :=
  values.findSome? (fun v =>
    match v with
    | some (Json.str s) =>
      if Msg.strTrim s = "" then none else some (Msg.strTrim s)
    | _ => none)

/-- Embedding of `normalizeMediaUrl`: trim, add `https:` to
protocol-relative URLs, parse, allow only http(s), reserialize. -/
def normalizeMediaUrl (value : String) : Option String :=
  let trimmed := Msg.strTrim value
  if trimmed = "" then none
  else
    let withProtocol :=
      if Url.lStartsWith "//".data trimmed.data then "https:" ++ trimmed
      else trimmed
    match Url.parseURL withProtocol.data with
    | none => none
    | some r =>
      if Url.protocol r == "http:".data || Url.protocol r == "https:".data then
        some (String.mk (Url.serializeURL r))
      else none

/-- Embedding of `normalizeImageArray`. -/
def normalizeImageArray (values : List Json) : List String :=
  values.flatMap (fun v =>
    match v with
    | Json.str s =>
      match normalizeMediaUrl s with
      | some n => [n]
      | none => []
    | _ => [])

/-- Embedding of `normalizeImages`. -/
def normalizeImages (value : Option Json) : List String :=
  match value with
  | none => []
  | some j =>
    if Json.truthy j = false then []
    else match j with
      | Json.str s => normalizeImageArray [Json.str s]
      | Json.arr xs => normalizeImageArray xs
      | Json.obj fields =>
        match Json.jget fields "url" with
        | some (Json.str u) => normalizeImageArray [Json.str u]
        | some (Json.arr xs) => normalizeImageArray xs
        | _ => []
      | _ => []

def extBoundary (cs : List Char) : Bool :=
  match cs with
  | [] => true
  | c :: _ => c == '?' || c == '#'

def extAt (cs : List Char) : Bool :=
  ["jpg", "jpeg", "png", "webp", "gif"].any (fun e =>
    Url.lStartsWith e.data cs && extBoundary (cs.drop e.length))

def extTest : List Char → Bool
  | [] => false
  | c :: rest => (c == '.' && extAt rest) || extTest rest

/-- Embedding of `isLikelyImageUrl`: an image extension followed by end,
`?` or `#`, or an xhs CDN host whose path is not a js/css/svg asset. -/
def isLikelyImageUrl (url : String) : Bool :=
  let lowered := Url.lowerStr url.data
  if extTest lowered then true
  else
    match Url.parseURL url.data with
    | some r =>
      let host := Url.lowerStr r.host
      if strIncludes host "xhscdn.com".data || strIncludes host "xiaohongshu.com".data then
        let path := Url.lowerStr r.path
        !(Url.lEndsWith ".js".data path || Url.lEndsWith ".css".data path ||
          Url.lEndsWith ".svg".data path)
      else false
    | none => false

/-- Embedding of `decodeUnicodeEscapes` (`\uXXXX` with four hex digits;
surrogate code points, unrepresentable in code-point strings, keep the
escape text — no claim exercises them). -/
def decodeUnicodeEscapes : List Char → List Char
  | [] => []
  | '\\' :: 'u' :: a :: b :: c :: d :: rest =>
    if isHexChar a && isHexChar b && isHexChar c && isHexChar d then
      let n := ((hexCharVal a * 16 + hexCharVal b) * 16 + hexCharVal c) * 16 + hexCharVal d
      if 55296 ≤ n ∧ n ≤ 57343 then
        '\\' :: 'u' :: a :: b :: c :: d :: decodeUnicodeEscapes rest
      else Char.ofNat n :: decodeUnicodeEscapes rest
    else '\\' :: decodeUnicodeEscapes ('u' :: a :: b :: c :: d :: rest)
  | c :: rest => c :: decodeUnicodeEscapes rest

/-- Character class `[^"'<>\\s]` of the raw sweeps: the backslash in the
regex literal escapes itself, so the class excludes the two quotes, the
angle brackets, the backslash, and (case-insensitively) the letter `s` —
not whitespace. -/
def xhsUrlChar (c : Char) : Bool :=
  !(c == '"' || c == '\'' || c == '<' || c == '>' || c == '\\' ||
    Url.lowerChar c == 's')

/-- One attempted match of `/https?:\/\/[^"'<>\\s]+/i`. -/
def xhsRawMatchAt (cs : List Char) : Option (List Char × List Char) :=
  match Norm.stripPrefixCi "http".data cs with
  | none => none
  | some (m₁, r₁) =>
    let afterScheme : Option (List Char × List Char) :=
      match r₁ with
      | c :: r₂ =>
        if Url.lowerChar c = 's' then
          match Norm.stripPrefixCi "://".data r₂ with
          | some (m₂, r₃) => some (m₁ ++ c :: m₂, r₃)
          | none =>
            match Norm.stripPrefixCi "://".data r₁ with
            | some (m₂, r₃) => some (m₁ ++ m₂, r₃)
            | none => none
        else
          match Norm.stripPrefixCi "://".data r₁ with
          | some (m₂, r₃) => some (m₁ ++ m₂, r₃)
          | none => none
      | [] => none
    match afterScheme with
    | none => none
    | some (m, r₃) =>
      let run := r₃.takeWhile xhsUrlChar
      if run = [] then none
      else some (m ++ run, r₃.dropWhile xhsUrlChar)

def xhsRawMatchesAux : Nat → List Char → List (List Char)
  | 0, _ => []
  | _ + 1, [] => []
  | fuel + 1, c :: rest =>
    match xhsRawMatchAt (c :: rest) with
    | some (m, after) => m :: xhsRawMatchesAux fuel after
    | none => xhsRawMatchesAux fuel rest

def xhsRawMatches (cs : List Char) : List (List Char) :=
  xhsRawMatchesAux cs.length cs

/-- One attempted match of `/https?:\\u002F\\u002F[^"'<>\\s]+/i` (URLs
with JSON-escaped slashes). -/
def xhsEscMatchAt (cs : List Char) : Option (List Char × List Char) :=
  match Norm.stripPrefixCi "http".data cs with
  | none => none
  | some (m₁, r₁) =>
    let afterScheme : Option (List Char × List Char) :=
      match r₁ with
      | c :: r₂ =>
        if Url.lowerChar c = 's' then
          match Norm.stripPrefixCi ":\\u002f\\u002f".data r₂ with
          | some (m₂, r₃) => some (m₁ ++ c :: m₂, r₃)
          | none =>
            match Norm.stripPrefixCi ":\\u002f\\u002f".data r₁ with
            | some (m₂, r₃) => some (m₁ ++ m₂, r₃)
            | none => none
        else
          match Norm.stripPrefixCi ":\\u002f\\u002f".data r₁ with
          | some (m₂, r₃) => some (m₁ ++ m₂, r₃)
          | none => none
      | [] => none
    match afterScheme with
    | none => none
    | some (m, r₃) =>
      let run := r₃.takeWhile xhsUrlChar
      if run = [] then none
      else some (m ++ run, r₃.dropWhile xhsUrlChar)

def xhsEscMatchesAux : Nat → List Char → List (List Char)
  | 0, _ => []
  | _ + 1, [] => []
  | fuel + 1, c :: rest =>
    match xhsEscMatchAt (c :: rest) with
    | some (m, after) => m :: xhsEscMatchesAux fuel after
    | none => xhsEscMatchesAux fuel rest

def xhsEscMatches (cs : List Char) : List (List Char) :=
  xhsEscMatchesAux cs.length cs

/-- `pushUrl` of `collectImageUrls`. -/
def pushUrl (url : String) : List String :=
  if url = "" then []
  else
    match normalizeMediaUrl url with
    | some n => if isLikelyImageUrl n then [n] else []
    | none => []

/-- The `imageKeyHint` regex: the key contains (case-insensitively) one
of the image-ish substrings. -/
def keyHint (k : String) : Bool :=
  strIncludes (Url.lowerStr k.data) "image".data ||
  strIncludes (Url.lowerStr k.data) "pic".data ||
  strIncludes (Url.lowerStr k.data) "photo".data ||
  strIncludes (Url.lowerStr k.data) "cover".data

def imageFieldKeys : List String :=
  ["url", "origin", "originUrl", "original", "originalUrl", "src", "path", "file"]

/-- `extractFromValue` of `collectImageUrls` (non-recursive through
objects apart from the direct `url` array). -/
def extractFromValue : Json → List String
  | Json.null => []
  | Json.bool _ => []
  | Json.num _ => []
  | Json.str s => pushUrl s
  | Json.arr items => goList items
  | Json.obj fields =>
    (imageFieldKeys.flatMap (fun k =>
      match Json.jget fields k with
      | some (Json.str s) => pushUrl s
      | _ => [])) ++
    (match Json.jget fields "url" with
     | some (Json.arr urls) =>
       urls.flatMap (fun u =>
         match u with
         | Json.str s => pushUrl s
         | _ => [])
     | _ => [])
where goList : List Json → List String
  | [] => []
  | j :: rest => extractFromValue j ++ goList rest

/-- `walk` of `collectImageUrls`; fuel `n` corresponds to `depth = n - 1`,
so `depth < 0` is fuel `0`.  The `WeakSet` cycle guard is omitted:
`JSON.parse` output is a tree. -/
def walkN : Nat → Json → List String
  | 0, _ => []
  | _ + 1, Json.null => []
  | _ + 1, Json.bool _ => []
  | _ + 1, Json.num _ => []
  | _ + 1, Json.str s => pushUrl s
  | fuel + 1, Json.arr items => items.flatMap (walkN fuel)
  | fuel + 1, Json.obj fields =>
    fields.flatMap (fun p =>
      (if keyHint p.1 then extractFromValue p.2 else []) ++ walkN fuel p.2)

/-- Embedding of `collectImageUrls`. -/
def collectImageUrls (j : Json) (maxDepth : Nat) : List String :=
  walkN (maxDepth + 1) j

/-- Embedding of `deduplicateUrls`. -/
def dedupUrlsGo (seen : List String) : List String → List String
  | [] => []
  | u :: rest =>
    if u == "" then dedupUrlsGo seen rest
    else
      let trimmed := Msg.strTrim u
      if trimmed == "" || seen.contains trimmed then dedupUrlsGo seen rest
      else trimmed :: dedupUrlsGo (trimmed :: seen) rest

def deduplicateUrls (urls : List String) : List String :=
  dedupUrlsGo [] urls

/-- Embedding of `deduplicateXhsImages`: xhscdn URLs are keyed by the
part before the first `!` (the style suffix). -/
def dedupXhsGo (seen : List String) : List String → List String
  | [] => []
  | u :: rest =>
    if u == "" then dedupXhsGo seen rest
    else
      let trimmed := Msg.strTrim u
      if trimmed == "" then dedupXhsGo seen rest
      else
        let key :=
          if strIncludes trimmed.data "xhscdn.com".data &&
              strIncludes trimmed.data ['!'] then
            String.mk (trimmed.data.takeWhile (fun c => !(c == '!')))
          else trimmed
        if seen.contains key then dedupXhsGo seen rest
        else trimmed :: dedupXhsGo (key :: seen) rest

def deduplicateXhsImages (urls : List String) : List String :=
  dedupXhsGo [] urls

/-- `selectImageUrl` loop body for one scene (empty scene matches all). -/
def selGo (scene : String) : List Json → Option String
  | [] => none
  | item :: rest =>
    if Json.truthy item && Json.typeofIsObject item then
      if (!(scene == "")) && (match Json.jfield item "imageScene" with
          | some (Json.str s) => !(s == scene)
          | _ => true) then selGo scene rest
      else
        match Json.jfield item "url" with
        | some (Json.str u) => some u
        | _ => selGo scene rest
    else selGo scene rest

/-- Embedding of `selectImageUrl` with its empty-scene retry. -/
def selectImageUrl (list : List Json) (scene : String) : Option String :=
  match selGo scene list with
  | some u => some u
  | none => if scene = "" then none else selGo "" list

/-- JS `a || b` over optional strings where the empty string is falsy. -/
def orElseStr (a b : Option String) : Option String :=
  match a with
  | some s => if s = "" then b else some s
  | none => b

def orEmpty (a : Option String) : String :=
  match a with
  | some s => s
  | none => ""

/-- Embedding of `extractImageListFromHtml`. -/
def extractImageListFromHtml (html : String) (jp : String → Option Json) :
    List String :=
  match strIndexOf html.data "\"imageList\":".data 0 with
  | none => []
  | some index =>
    match strIndexOf html.data ['['] (index + 12) with
    | none => []
    | some arrayStart =>
      match extractJsonArray html arrayStart with
      | none => []
      | some arrayText =>
        let wrapper := "\x7b\"imageList\":" ++ arrayText ++ "\x7d"
        match jp wrapper with
        | none => []
        | some parsed =>
          match Json.jfield parsed "imageList" with
          | some (Json.arr items) =>
            items.flatMap (fun item =>
              if Json.truthy item && Json.typeofIsObject item then
                let infoList := match Json.jfield item "infoList" with
                  | some (Json.arr xs) => xs
                  | _ => []
                let url :=
                  orElseStr (orElseStr (orElseStr
                    (selectImageUrl infoList "WB_DFT")
                    (selectImageUrl infoList "WB_PRV"))
                    (selectImageUrl infoList ""))
                    (match Json.jfield item "url" with
                     | some (Json.str s) => some s
                     | _ => none)
                match url with
                | some u =>
                  if u = "" then []
                  else match normalizeMediaUrl u with
                    | some n => [n]
                    | none => []
                | none => []
              else [])
          | _ => []

/-- Embedding of `extractImagesFromHtml`: structured sources (NEXT data,
state-assignment blobs), then the raw and escaped URL sweeps. -/
def extractImagesFromHtml (html : String) (jp : String → Option Json) :
    List String :=
  let sources : List Json :=
    (match extractJsonScriptById html "__NEXT_DATA__" jp with
     | some n => if Json.truthy n then [n] else []
     | none => []) ++
    (["window.__INITIAL_STATE__", "window.__PRELOADED_STATE__",
      "window.__INITIAL_DATA__"].flatMap (fun marker =>
      match extractJsonAssignment html marker with
      | none => []
      | some jsonText =>
        match jp jsonText with
        | some parsed => if Json.truthy parsed then [parsed] else []
        | none => []))
  let structured := sources.flatMap (fun s => collectImageUrls s 6)
  let raw := (xhsRawMatches html.data).flatMap (fun m =>
    let decoded := decodeUnicodeEscapes m
    if decoded ≠ [] ∧ isLikelyImageUrl (String.mk decoded) then
      [String.mk decoded]
    else [])
  let escaped := (xhsEscMatches html.data).flatMap (fun m =>
    let decoded := decodeUnicodeEscapes m
    if decoded ≠ [] ∧ isLikelyImageUrl (String.mk decoded) then
      [String.mk decoded]
    else [])
  deduplicateUrls (structured ++ raw ++ escaped)

end Xhs

structure XhsNote where
  title : String
  content : String
  images : List String
  coverImage : Option String
  url : String
  sourceUrl : Option String
deriving DecidableEq

namespace Xhs

/-- Embedding of `parseXhsNote`: meta fallbacks, JSON-LD fields, image
mining, placeholder title, trimming, deduplication, and cover choice. -/
def parseXhsNote (html url : String) (jp : String → Option Json) : XhsNote :=
  let metaTitle := orEmpty (orElseStr (extractMeta html "og:title") (extractTitle html))
  let metaDescription := orEmpty (orElseStr (extractMeta html "og:description")
    (extractMeta html "description"))
  let metaCover := orEmpty (orElseStr (orElseStr (extractMeta html "og:image")
    (extractMeta html "og:image:secure_url")) (extractMeta html "image"))
  let ld := extractJsonLd html jp
  let title₀ := match ld with
    | some l =>
      match firstString [Json.jfield l "headline", Json.jfield l "alternativeHeadline",
          Json.jfield l "name"] with
      | some t => t
      | none => ""
    | none => ""
  let content₀ := match ld with
    | some l =>
      match firstString [Json.jfield l "articleBody", Json.jfield l "description"] with
      | some c => c
      | none => ""
    | none => ""
  let images₀ := match ld with
    | some l => normalizeImages (Json.jfield l "image")
    | none => []
  let images₁ := images₀ ++ extractImageListFromHtml html jp ++
    extractImagesFromHtml html jp
  let title₁ :=
    if Msg.strTrim title₀ = "" then
      if Msg.strTrim metaTitle = "" then "未能获取标题" else Msg.strTrim metaTitle
    else title₀
  let content₁ :=
    if Msg.strTrim content₀ = "" then Msg.strTrim metaDescription else content₀
  let images₂ :=
    if images₁ = [] ∧ metaCover ≠ "" then [Msg.strTrim metaCover] else images₁
  let title₂ := if Msg.strTrim title₁ = "" then "未能获取标题" else Msg.strTrim title₁
  let content₂ := Msg.strTrim content₁
  let images₃ := deduplicateXhsImages images₂
  let cover := match images₃ with
    | i :: _ =>
      if i = "" then
        if Msg.strTrim metaCover = "" then none else some (Msg.strTrim metaCover)
      else some i
    | [] =>
      if Msg.strTrim metaCover = "" then none else some (Msg.strTrim metaCover)
  { title := title₂, content := content₂, images := images₃,
    coverImage := cover, url := url, sourceUrl := none }

end Xhs

def jpNone : String → Option Json := fun _ => none

def xhsCexHtml : String := "https://a.b/i.jpg"


theorem chr_toNat (n : Nat) (h : n < 55296) : (Char.ofNat n).toNat = n := by
  have hv : Nat.isValidChar n := Or.inl h
  simp only [Char.ofNat, hv, dif_pos, Char.ofNatAux, Char.toNat]
  rfl

namespace ListH

theorem dropWhile_eq_self_of_all {p : Char → Bool} {cs : List Char}
    (h : ∀ c ∈ cs, p c = false) : cs.dropWhile p = cs := by
  cases cs with
  | nil => rfl
  | cons c cs => simp [List.dropWhile, h c (List.mem_cons_self c cs)]

theorem takeWhile_append_of_all {p : Char → Bool} {xs ys : List Char}
    (h : ∀ x ∈ xs, p x = true) : (xs ++ ys).takeWhile p = xs ++ ys.takeWhile p := by
  induction xs with
  | nil => simp
  | cons x xs ih =>
    simp only [List.cons_append, List.takeWhile]
    rw [h x (List.mem_cons_self x xs)]
    simp [ih fun a ha => h a (List.mem_cons_of_mem x ha)]

theorem dropWhile_append_of_all {p : Char → Bool} {xs ys : List Char}
    (h : ∀ x ∈ xs, p x = true) : (xs ++ ys).dropWhile p = ys.dropWhile p := by
  induction xs with
  | nil => simp
  | cons x xs ih =>
    simp only [List.cons_append, List.dropWhile]
    rw [h x (List.mem_cons_self x xs)]
    exact ih fun a ha => h a (List.mem_cons_of_mem x ha)

theorem takeWhile_eq_self_of_all {p : Char → Bool} {cs : List Char}
    (h : ∀ c ∈ cs, p c = true) : cs.takeWhile p = cs := by
  have h₁ := @takeWhile_append_of_all p cs [] h
  simpa using h₁

theorem dropWhile_eq_nil_of_all {p : Char → Bool} {cs : List Char}
    (h : ∀ c ∈ cs, p c = true) : cs.dropWhile p = [] := by
  have h₁ := @dropWhile_append_of_all p cs [] h
  simpa using h₁

theorem dropWhile_head_false {p : Char → Bool} {cs : List Char} {c : Char} {t : List Char}
    (h : cs.dropWhile p = c :: t) : p c = false := by
  induction cs with
  | nil => simp at h
  | cons x xs ih =>
    by_cases hx : p x
    · simp [List.dropWhile, hx] at h
      exact ih h
    · simp [List.dropWhile, hx] at h
      rw [← h.1]
      simp [hx]

end ListH

namespace Fmt

theorem digitChar_toNat {n : Nat} (h : n < 10) : (digitChar n).toNat = 48 + n :=
  chr_toNat (48 + n) (by omega)

theorem digitChar_isDigit {n : Nat} (h : n < 10) : Url.isAsciiDigit (digitChar n) = true := by
  simp [Url.isAsciiDigit, digitChar_toNat h]
  omega

theorem decToNat_append (xs ys : List Char) :
    Url.decToNat (xs ++ ys) = ys.foldl (fun a c => a * 10 + (c.toNat - 48)) (Url.decToNat xs) := by
  simp [Url.decToNat, List.foldl_append]

theorem natToDecAux_spec (fuel n : Nat) (h : n < fuel) :
    Url.decToNat (natToDecAux fuel n) = n ∧ natToDecAux fuel n ≠ [] ∧
      ∀ c ∈ natToDecAux fuel n, Url.isAsciiDigit c = true := by
  induction fuel generalizing n with
  | zero => omega
  | succ fuel ih =>
    by_cases h10 : n < 10
    · refine ⟨?_, by simp [natToDecAux, h10], ?_⟩
      · simp [natToDecAux, h10, Url.decToNat, digitChar_toNat h10]
      · intro c hc
        simp [natToDecAux, h10] at hc
        subst hc
        exact digitChar_isDigit h10
    · have hdiv : n / 10 < fuel := by omega
      obtain ⟨ih₁, ih₂, ih₃⟩ := ih (n / 10) hdiv
      refine ⟨?_, by simp [natToDecAux, h10], ?_⟩
      · have hmod : n % 10 < 10 := Nat.mod_lt n (by norm_num)
        simp [natToDecAux, h10, decToNat_append, ih₁, List.foldl, digitChar_toNat hmod]
        omega
      · intro c hc
        simp [natToDecAux, h10] at hc
        rcases hc with hc | hc
        · exact ih₃ c hc
        · subst hc
          exact digitChar_isDigit (Nat.mod_lt n (by norm_num))

theorem decToNat_natToDec (n : Nat) : Url.decToNat (natToDec n) = n :=
  (natToDecAux_spec (n + 1) n (by omega)).1

theorem natToDec_ne_nil (n : Nat) : natToDec n ≠ [] :=
  (natToDecAux_spec (n + 1) n (by omega)).2.1

theorem natToDec_all_digit (n : Nat) : ∀ c ∈ natToDec n, Url.isAsciiDigit c = true :=
  (natToDecAux_spec (n + 1) n (by omega)).2.2

end Fmt

namespace Url

theorem splitAtLast_of_not_mem {sep : Char} {cs : List Char} (h : sep ∉ cs) :
    splitAtLast sep cs = none := by
  induction cs with
  | nil => rfl
  | cons c cs ih =>
    simp only [List.mem_cons, not_or] at h
    have hc : ¬ c = sep := fun hc => h.1 hc.symm
    simp [splitAtLast, ih h.2, hc]

theorem splitAtLast_append {sep : Char} {xs ys : List Char} (h : sep ∉ ys) :
    splitAtLast sep (xs ++ sep :: ys) = some (xs, ys) := by
  induction xs with
  | nil => simp [splitAtLast, splitAtLast_of_not_mem h]
  | cons x xs ih => simp [splitAtLast, ih]

theorem lowerChar_idem (c : Char) : lowerChar (lowerChar c) = lowerChar c := by
  by_cases h : 65 ≤ c.toNat ∧ c.toNat ≤ 90
  · have ht : (Char.ofNat (c.toNat + 32)).toNat = c.toNat + 32 := chr_toNat _ (by omega)
    simp only [lowerChar, if_pos h, ht]
    rw [if_neg (by omega)]
  · simp only [lowerChar, if_neg h]

theorem lowerStr_idem (cs : List Char) : lowerStr (lowerStr cs) = lowerStr cs := by
  simp only [lowerStr, List.map_map]
  exact List.map_congr_left fun c _ => lowerChar_idem c

theorem lowerChar_toNat_gt (c : Char) : 32 < c.toNat → 32 < (lowerChar c).toNat := by
  intro h
  by_cases hc : 65 ≤ c.toNat ∧ c.toNat ≤ 90
  · rw [lowerChar, if_pos hc, chr_toNat _ (by omega)]
    omega
  · rwa [lowerChar, if_neg hc]

theorem encodeWith_eq_self {inSet : Char → Bool} {cs : List Char}
    (h : ∀ c ∈ cs, inSet c = false) : encodeWith inSet cs = cs := by
  induction cs with
  | nil => rfl
  | cons c cs ih =>
    simp [encodeWith, h c (List.mem_cons_self c cs),
      ih fun a ha => h a (List.mem_cons_of_mem c ha)]

theorem mem_pctEncodeChar {c₁ c₀ : Char} (h : c₁ ∈ pctEncodeChar c₀) :
    c₁ = '%' ∨ ∃ n, n < 16 ∧ c₁ = hexDigitChar n := by
  have hb : ∀ bs : List Nat, c₁ ∈ pctBytes bs →
      c₁ = '%' ∨ ∃ b ∈ bs, c₁ = hexDigitChar (b / 16) ∨ c₁ = hexDigitChar (b % 16) := by
    intro bs
    induction bs with
    | nil => intro h₁; cases h₁
    | cons b bs ih =>
      intro hmem
      simp only [pctBytes, List.mem_cons] at hmem
      rcases hmem with h₁ | h₁ | h₁ | h₁
      · exact Or.inl h₁
      · exact Or.inr ⟨b, List.mem_cons_self b bs, Or.inl h₁⟩
      · exact Or.inr ⟨b, List.mem_cons_self b bs, Or.inr h₁⟩
      · rcases ih h₁ with h₂ | ⟨b₁, hb₁, hc⟩
        · exact Or.inl h₂
        · exact Or.inr ⟨b₁, List.mem_cons_of_mem b hb₁, hc⟩
  have hcbound : c₀.toNat < 1114112 := by
    have hv := c₀.valid
    rcases hv with h₁ | h₁
    · exact Nat.lt_trans h₁ (by norm_num)
    · exact h₁.2
  have hbytes : ∀ b ∈ utf8Bytes c₀, b < 256 := by
    intro b hmem
    simp only [utf8Bytes] at hmem
    by_cases h1 : c₀.toNat < 128
    · simp [h1] at hmem
      omega
    · by_cases h2 : c₀.toNat < 2048
      · simp [h1, h2] at hmem
        rcases hmem with h₃ | h₃ <;> omega
      · by_cases h3 : c₀.toNat < 65536
        · simp [h1, h2, h3] at hmem
          rcases hmem with h₃ | h₃ | h₃ <;> omega
        · simp [h1, h2, h3] at hmem
          rcases hmem with h₃ | h₃ | h₃ | h₃ <;> omega
  rcases hb (utf8Bytes c₀) h with h₁ | ⟨b, hbm, hc⟩
  · exact Or.inl h₁
  · have hlt := hbytes b hbm
    rcases hc with hc | hc
    · exact Or.inr ⟨b / 16, by omega, hc⟩
    · exact Or.inr ⟨b % 16, Nat.mod_lt b (by norm_num), hc⟩

theorem mem_encodeWith_structure {inSet : Char → Bool} {cs : List Char} :
    ∀ c ∈ encodeWith inSet cs,
      (∃ c₀ ∈ cs, inSet c₀ = false ∧ c = c₀) ∨ c = '%' ∨ ∃ n, n < 16 ∧ c = hexDigitChar n := by
  induction cs with
  | nil => intro c hc; cases hc
  | cons c₀ cs ih =>
    intro c hc
    simp only [encodeWith, List.mem_append] at hc
    rcases hc with hc | hc
    · by_cases hset : inSet c₀
      · rw [if_pos hset] at hc
        rcases mem_pctEncodeChar hc with h | h
        · exact Or.inr (Or.inl h)
        · exact Or.inr (Or.inr h)
      · rw [if_neg hset] at hc
        simp at hc
        exact Or.inl ⟨c₀, List.mem_cons_self c₀ cs, by simp [hset, hc]⟩
    · rcases ih c hc with ⟨c₁, hm, hp⟩ | h
      · exact Or.inl ⟨c₁, List.mem_cons_of_mem c₀ hm, hp⟩
      · exact Or.inr h

theorem mem_encodeWith {inSet : Char → Bool} (hpct : inSet '%' = false)
    (hhex : ∀ n, n < 16 → inSet (hexDigitChar n) = false) {cs : List Char} :
    ∀ c ∈ encodeWith inSet cs, inSet c = false := by
  intro c hc
  rcases mem_encodeWith_structure c hc with ⟨c₀, _, hp, he⟩ | he | ⟨n, hn, he⟩
  · rwa [he]
  · rwa [he]
  · rw [he]
    exact hhex n hn

theorem querySpecial_hex : ∀ n, n < 16 → inQuerySpecialSet (hexDigitChar n) = false := by decide

theorem querySpecial_pct : inQuerySpecialSet '%' = false := by decide

theorem path_hex : ∀ n, n < 16 → inPathSet (hexDigitChar n) = false := by decide

theorem path_pct : inPathSet '%' = false := by decide

theorem userinfo_hex : ∀ n, n < 16 → inUserinfoSet (hexDigitChar n) = false := by decide

theorem userinfo_pct : inUserinfoSet '%' = false := by decide

end Url

namespace Dedup

theorem mapGet_mapSet_self (m : MapSI) (k : String) (v : Int) :
    mapGet (mapSet m k v) k = some v := by
  induction m with
  | nil => simp [mapGet, mapSet]
  | cons hd tl ih =>
    obtain ⟨k₁, v₁⟩ := hd
    by_cases h : k₁ = k
    · simp [mapGet, mapSet, h]
    · simp [mapGet, mapSet, h, ih]

theorem mapGet_mapSet_ne (m : MapSI) (k k₀ : String) (v : Int) (h : k₀ ≠ k) :
    mapGet (mapSet m k v) k₀ = mapGet m k₀ := by
  have h₀ : ¬ k = k₀ := fun h₁ => h h₁.symm
  induction m with
  | nil => simp [mapGet, mapSet, h₀]
  | cons hd tl ih =>
    obtain ⟨k₁, v₁⟩ := hd
    by_cases h₁ : k₁ = k
    · subst h₁
      simp [mapGet, mapSet, h₀]
    · by_cases h₂ : k₁ = k₀ <;> simp [mapGet, mapSet, h₁, h₂, h, h₀, ih]

theorem mapGet_markRecentlyParsed_of_not_mem (keys : List String) (m : MapSI)
    (now : Int) (k : String) (h : k ∉ keys) :
    mapGet (markRecentlyParsed keys m now) k = mapGet m k := by
  induction keys generalizing m with
  | nil => rfl
  | cons hd tl ih =>
    simp only [List.mem_cons, not_or] at h
    have step : markRecentlyParsed (hd :: tl) m now = markRecentlyParsed tl (mapSet m hd now) now := by
      simp [markRecentlyParsed]
    rw [step, ih (mapSet m hd now) h.2, mapGet_mapSet_ne m hd k now h.1]

theorem mapGet_markRecentlyParsed_of_mem (keys : List String) (m : MapSI)
    (now : Int) (k : String) (h : k ∈ keys) :
    mapGet (markRecentlyParsed keys m now) k = some now := by
  induction keys generalizing m with
  | nil => cases h
  | cons hd tl ih =>
    by_cases h₁ : k ∈ tl
    · simpa [markRecentlyParsed] using ih (mapSet m hd now) h₁
    · have h₂ : k = hd := by
        rcases List.mem_cons.mp h with h₂ | h₂
        · exact h₂
        · exact absurd h₂ h₁
      subst h₂
      simpa [markRecentlyParsed] using
        (mapGet_markRecentlyParsed_of_not_mem tl (mapSet m k now) now k h₁).trans
          (mapGet_mapSet_self m k now)

end Dedup

/-- C2: a first call with no fresh entries returns false and marks all keys;
a second call within the window on an overlapping key list returns true. -/
theorem claim_C2 (m : Dedup.MapSI) (K₁ K₂ : List String) (windowMs t₁ t₂ : Int)
    (hK₁ : K₁ ≠ []) (hK₂ : K₂ ≠ [])
    (hshared : ∃ k, k ∈ K₁ ∧ k ∈ K₂)
    (hstale : ∀ k ∈ K₁, Dedup.isFreshKey m windowMs t₁ k = false)
    (hwin : t₂ - t₁ < windowMs) :
    (Dedup.checkAndMarkParsed K₁ m windowMs t₁).1 = false ∧
      (Dedup.checkAndMarkParsed K₂ (Dedup.checkAndMarkParsed K₁ m windowMs t₁).2
        windowMs t₂).1 = true := by
  have hnot : Dedup.isRecentlyParsed K₁ m windowMs t₁ = false := by
    simp only [Dedup.isRecentlyParsed, List.any_eq_false]
    intro k hk
    simp [hstale k hk]
  have hfirst : Dedup.checkAndMarkParsed K₁ m windowMs t₁ =
      (false, Dedup.markRecentlyParsed K₁ m t₁) := by
    simp [Dedup.checkAndMarkParsed, hnot]
  refine ⟨by simp [hfirst], ?_⟩
  obtain ⟨k, hk₁, hk₂⟩ := hshared
  have hfreshk : Dedup.isFreshKey (Dedup.markRecentlyParsed K₁ m t₁) windowMs t₂ k = true := by
    simp [Dedup.isFreshKey, Dedup.mapGet_markRecentlyParsed_of_mem K₁ m t₁ k hk₁, hwin]
  have hany : Dedup.isRecentlyParsed K₂ (Dedup.markRecentlyParsed K₁ m t₁) windowMs t₂ = true :=
    List.any_eq_true.mpr ⟨k, hk₂, hfreshk⟩
  rw [hfirst]
  simp [Dedup.checkAndMarkParsed, hany]

theorem claim_C2_witness :
    (["a", "b"] ≠ ([] : List String) ∧ ["b", "c"] ≠ ([] : List String) ∧
      (∃ k, k ∈ ["a", "b"] ∧ k ∈ ["b", "c"]) ∧
      (∀ k ∈ ["a", "b"], Dedup.isFreshKey [] (60000 : Int) 1000 k = false) ∧
      (1500 : Int) - 1000 < 60000) ∧
    (Dedup.checkAndMarkParsed ["a", "b"] [] 60000 1000).1 = false ∧
      (Dedup.checkAndMarkParsed ["b", "c"]
        (Dedup.checkAndMarkParsed ["a", "b"] [] 60000 1000).2 60000 1500).1 = true :=
  ⟨⟨by decide, by decide, ⟨"b", by decide⟩, by decide, by decide⟩,
    claim_C2 [] ["a", "b"] ["b", "c"] 60000 1000 1500 (by decide) (by decide)
      ⟨"b", by decide⟩ (by decide) (by decide)⟩

/-- C6: checkAndMarkParsed is an atomic check-and-mark: on a hit it returns
true and leaves the map unchanged; on a miss it returns false and afterwards
every supplied key maps to now. -/
theorem claim_C6 (m : Dedup.MapSI) (keys : List String) (windowMs now : Int) :
    (Dedup.isRecentlyParsed keys m windowMs now = true →
      Dedup.checkAndMarkParsed keys m windowMs now = (true, m)) ∧
    (Dedup.isRecentlyParsed keys m windowMs now = false →
      (Dedup.checkAndMarkParsed keys m windowMs now).1 = false ∧
        ∀ k ∈ keys, Dedup.mapGet (Dedup.checkAndMarkParsed keys m windowMs now).2 k = some now) := by
  constructor
  · intro h
    simp [Dedup.checkAndMarkParsed, h]
  · intro h
    refine ⟨by simp [Dedup.checkAndMarkParsed, h], fun k hk => ?_⟩
    simp [Dedup.checkAndMarkParsed, h, Dedup.mapGet_markRecentlyParsed_of_mem keys m now k hk]

theorem claim_C6_witness :
    (Dedup.isRecentlyParsed ["x"] [("x", 0)] (100 : Int) 50 = true ∧
      Dedup.checkAndMarkParsed ["x"] [("x", 0)] 100 50 = (true, [("x", 0)])) ∧
    (Dedup.isRecentlyParsed ["y"] [("x", 0)] (100 : Int) 500 = false ∧
      (Dedup.checkAndMarkParsed ["y"] [("x", 0)] 100 500).1 = false ∧
        Dedup.mapGet (Dedup.checkAndMarkParsed ["y"] [("x", 0)] 100 500).2 "y" = some 500) :=
  ⟨⟨by decide, (claim_C6 [("x", 0)] ["x"] 100 50).1 (by decide)⟩,
    ⟨by decide, ((claim_C6 [("x", 0)] ["y"] 100 500).2 (by decide)).1,
      ((claim_C6 [("x", 0)] ["y"] 100 500).2 (by decide)).2 "y" (by decide)⟩⟩

/-- C10: a falsy canonical key (undefined or empty string) makes
checkAndAddToSeen return false without touching the seen-set. -/
theorem claim_C10 (seenSet : List String) (key : Option String)
    (h : key = none ∨ key = some "") :
    Dedup.checkAndAddToSeen key seenSet = (false, seenSet) := by
  rcases h with h | h <;> subst h <;> simp [Dedup.checkAndAddToSeen]

theorem claim_C10_witness :
    ((some "" : Option String) = none ∨ (some "" : Option String) = some "") ∧
      Dedup.checkAndAddToSeen (some "") ["k"] = (false, ["k"]) :=
  ⟨Or.inr rfl, claim_C10 ["k"] (some "") (Or.inr rfl)⟩

/-- C3 counterexample: the spec states `formatCount(12345678) = "1.2亿"`, but
12345678 is below the 100000000 threshold, so the code renders it in the 万
branch as "1234.6万". -/
theorem claim_C3_cex : Fmt.formatCount 12345678 ≠ "1.2亿" := by decide

/-- C3 (amended): formatCount maps 12345678 to "1234.6万" (not "1.2亿" — the
value is below the 亿 threshold); the remaining concrete values are as the
spec states: 150000000 ↦ "1.5亿", 25000 ↦ "2.5万", 9999 ↦ "9999". -/
theorem claim_C3 :
    Fmt.formatCount 12345678 = "1234.6万" ∧
      Fmt.formatCount 150000000 = "1.5亿" ∧
      Fmt.formatCount 25000 = "2.5万" ∧
      Fmt.formatCount 9999 = "9999" := by
  refine ⟨by decide, by decide, by decide, by decide⟩

namespace Url

theorem char_eq_of_toNat {c d : Char} (h : c.toNat = d.toNat) : c = d := by
  cases c
  cases d
  simp only [Char.toNat] at h
  congr 1
  exact UInt32.ext h

theorem char_toNat_space {c : Char} (h : c.toNat = 32) : c = ' ' :=
  char_eq_of_toNat (by rw [h]; rfl)

theorem gt32_of_not_query {c : Char} (h : inQuerySet c = false) : 32 < c.toNat := by
  rcases Nat.lt_or_ge 32 c.toNat with h₃ | h₃
  · exact h₃
  · exfalso
    rcases Nat.lt_or_ge c.toNat 32 with h₄ | h₄
    · have ht : inQuerySet c = true := by
        simp [inQuerySet, inC0OrHighSet]
        omega
      rw [h] at ht
      cases ht
    · have h32 : c.toNat = 32 := by omega
      have hsp := char_toNat_space h32
      subst hsp
      simp [inQuerySet] at h

theorem query_of_querySpecial {c : Char} (h : inQuerySet c = true) :
    inQuerySpecialSet c = true := by
  simp [inQuerySpecialSet, h]

theorem query_of_path {c : Char} (h : inQuerySet c = true) : inPathSet c = true := by
  simp [inPathSet, h]

theorem path_of_userinfo {c : Char} (h : inPathSet c = true) : inUserinfoSet c = true := by
  simp [inUserinfoSet, h]

theorem not_query_of_not_path {c : Char} (h : inPathSet c = false) : inQuerySet c = false := by
  cases hq : inQuerySet c
  · rfl
  · rw [query_of_path hq] at h
    cases h

theorem not_path_of_not_userinfo {c : Char} (h : inUserinfoSet c = false) :
    inPathSet c = false := by
  cases hq : inPathSet c
  · rfl
  · rw [path_of_userinfo hq] at h
    cases h

theorem not_query_of_not_querySpecial {c : Char} (h : inQuerySpecialSet c = false) :
    inQuerySet c = false := by
  cases hq : inQuerySet c
  · rfl
  · rw [query_of_querySpecial hq] at h
    cases h

theorem le126_of_not_query {c : Char} (h : inQuerySet c = false) : c.toNat ≤ 126 := by
  rcases Nat.lt_or_ge 126 c.toNat with h₃ | h₃
  · exfalso
    have ht : inQuerySet c = true := by
      simp [inQuerySet, inC0OrHighSet]
      omega
    rw [h] at ht
    cases ht
  · omega

theorem notjsws_of_range {c : Char} (h1 : 32 < c.toNat) (h2 : c.toNat ≤ 126) :
    isJsWhitespace c = false := by
  simp [isJsWhitespace]
  omega

theorem notjsws_of_not_forbidden {c : Char} (h : forbiddenHostChar c = false) :
    isJsWhitespace c = false := by
  cases hw : isJsWhitespace c
  · rfl
  · exfalso
    have ht : forbiddenHostChar c = true := by
      simp [forbiddenHostChar, hw]
    rw [h] at ht
    cases ht

theorem gt32_of_not_forbidden {c : Char} (h : forbiddenHostChar c = false) : 32 < c.toNat := by
  rcases Nat.lt_or_ge 32 c.toNat with h₃ | h₃
  · exact h₃
  · exfalso
    rcases Nat.lt_or_ge c.toNat 32 with h₄ | h₄
    · have ht : forbiddenHostChar c = true := by
        simp [forbiddenHostChar]
        omega
      rw [h] at ht
      cases ht
    · have h32 : c.toNat = 32 := by omega
      have hsp := char_toNat_space h32
      subst hsp
      simp [forbiddenHostChar, isJsWhitespace] at h

theorem authTerm_chars {c : Char} (h : isAuthorityTerm c = true) :
    c = '/' ∨ c = '\\' ∨ c = '?' ∨ c = '#' := by
  simp only [isAuthorityTerm, Bool.or_eq_true, beq_iff_eq] at h
  tauto

theorem pathTerm_chars {c : Char} (h : isPathTerm c = true) : c = '?' ∨ c = '#' := by
  simp only [isPathTerm, Bool.or_eq_true, beq_iff_eq] at h
  tauto

theorem not_authTerm_of_not_userinfo {c : Char} (h : inUserinfoSet c = false) :
    (!isAuthorityTerm c) = true := by
  cases ha : isAuthorityTerm c
  · rfl
  · rcases authTerm_chars ha with hc | hc | hc | hc <;> subst hc <;> exact absurd h (by decide)

theorem not_authTerm_of_not_forbidden {c : Char} (h : forbiddenHostChar c = false) :
    (!isAuthorityTerm c) = true := by
  cases ha : isAuthorityTerm c
  · rfl
  · rcases authTerm_chars ha with hc | hc | hc | hc <;> subst hc <;> exact absurd h (by decide)

theorem not_authTerm_of_digit {c : Char} (h : isAsciiDigit c = true) :
    (!isAuthorityTerm c) = true := by
  cases ha : isAuthorityTerm c
  · rfl
  · rcases authTerm_chars ha with hc | hc | hc | hc <;> subst hc <;> exact absurd h (by decide)

theorem not_pathTerm_of_not_path {c : Char} (h : inPathSet c = false) :
    (!isPathTerm c) = true := by
  cases ha : isPathTerm c
  · rfl
  · rcases pathTerm_chars ha with hc | hc <;> subst hc <;> exact absurd h (by decide)

theorem ne_of_digit_at {c : Char} (h : isAsciiDigit c = true) : c ≠ '@' := by
  intro hc
  subst hc
  exact absurd h (by decide)

theorem ne_of_digit_colon {c : Char} (h : isAsciiDigit c = true) : c ≠ ':' := by
  intro hc
  subst hc
  exact absurd h (by decide)

theorem ne_at_of_not_forbidden {c : Char} (h : forbiddenHostChar c = false) : c ≠ '@' := by
  intro hc
  subst hc
  simp [forbiddenHostChar, isJsWhitespace] at h

theorem ne_colon_of_not_forbidden {c : Char} (h : forbiddenHostChar c = false) : c ≠ ':' := by
  intro hc
  subst hc
  simp [forbiddenHostChar, isJsWhitespace] at h

theorem map_eq_self_of {f : Char → Char} {cs : List Char} (h : ∀ c ∈ cs, f c = c) :
    cs.map f = cs := by
  induction cs with
  | nil => rfl
  | cons c cs ih =>
    simp [h c (List.mem_cons_self c cs), ih fun a ha => h a (List.mem_cons_of_mem c ha)]

theorem dropSlash_stage (ui host Z : List Char)
    (huiok : ∀ c ∈ ui, inUserinfoSet c = false)
    (hhostne : host ≠ []) (hhostok : ∀ c ∈ host, forbiddenHostChar c = false) :
    List.dropWhile (fun c => c == '/' || c == '\\')
      ('/' :: '/' :: ((if ui = [] then [] else ui ++ ['@']) ++ (host ++ Z))) =
      (if ui = [] then [] else ui ++ ['@']) ++ (host ++ Z) := by
  have hstep : ∀ Y : List Char,
      List.dropWhile (fun c => c == '/' || c == '\\') ('/' :: '/' :: Y) =
        List.dropWhile (fun c => c == '/' || c == '\\') Y := by
    intro Y
    simp [List.dropWhile]
  rw [hstep]
  have hhead : ∃ c t, (if ui = [] then [] else ui ++ ['@']) ++ (host ++ Z) = c :: t ∧
      (c == '/' || c == '\\') = false := by
    by_cases hui : ui = []
    · subst hui
      obtain ⟨hh, ht, hhost⟩ := List.exists_cons_of_ne_nil hhostne
      subst hhost
      refine ⟨hh, ht ++ Z, by simp, ?_⟩
      have hc := hhostok hh (List.mem_cons_self hh ht)
      cases h₃ : (hh == '/' || hh == '\\')
      · rfl
      · exfalso
        simp only [Bool.or_eq_true, beq_iff_eq] at h₃
        rcases h₃ with h₃ | h₃ <;> subst h₃ <;> exact absurd hc (by decide)
    · obtain ⟨uh, ut, hu⟩ := List.exists_cons_of_ne_nil hui
      subst hu
      refine ⟨uh, ut ++ '@' :: (host ++ Z), by simp, ?_⟩
      have hc := huiok uh (List.mem_cons_self uh ut)
      cases h₃ : (uh == '/' || uh == '\\')
      · rfl
      · exfalso
        simp only [Bool.or_eq_true, beq_iff_eq] at h₃
        rcases h₃ with h₃ | h₃ <;> subst h₃ <;> exact absurd hc (by decide)
  obtain ⟨c, t, heq, hc⟩ := hhead
  rw [heq]
  simp [List.dropWhile_cons, hc]

theorem authority_all (ui host pc : List Char)
    (huiok : ∀ c ∈ ui, inUserinfoSet c = false)
    (hhostok : ∀ c ∈ host, forbiddenHostChar c = false)
    (hpc : ∀ c ∈ pc, (!isAuthorityTerm c) = true) :
    ∀ c ∈ (if ui = [] then [] else ui ++ ['@']) ++ (host ++ pc),
      (!isAuthorityTerm c) = true := by
  intro c hc
  rcases List.mem_append.mp hc with hm | hm
  · by_cases hui : ui = []
    · rw [if_pos hui] at hm
      cases hm
    · rw [if_neg hui] at hm
      rcases List.mem_append.mp hm with hm | hm
      · exact not_authTerm_of_not_userinfo (huiok c hm)
      · simp at hm
        subst hm
        decide
  · rcases List.mem_append.mp hm with hm | hm
    · exact not_authTerm_of_not_forbidden (hhostok c hm)
    · exact hpc c hm

theorem takeDropAuth_stage (A ptq : List Char)
    (hAall : ∀ c ∈ A, (!isAuthorityTerm c) = true) :
    (A ++ '/' :: ptq).takeWhile (fun c => !isAuthorityTerm c) = A ∧
      (A ++ '/' :: ptq).dropWhile (fun c => !isAuthorityTerm c) = '/' :: ptq := by
  have hslash : (!isAuthorityTerm '/') = false := by decide
  constructor
  · rw [ListH.takeWhile_append_of_all hAall, List.takeWhile_cons, hslash]
    simp
  · rw [ListH.dropWhile_append_of_all hAall, List.dropWhile_cons, hslash]
    simp

theorem atSplit_stage (ui hostpc : List Char)
    (hnoAt : '@' ∉ hostpc)
    (huiok : ∀ c ∈ ui, inUserinfoSet c = false) :
    ∃ uiRaw,
      (match splitAtLast '@' ((if ui = [] then [] else ui ++ ['@']) ++ hostpc) with
        | some (u, h₀) => (u, h₀)
        | none => ([], (if ui = [] then [] else ui ++ ['@']) ++ hostpc)) = (uiRaw, hostpc) ∧
        encodeWith inUserinfoSet uiRaw = ui := by
  by_cases hui : ui = []
  · refine ⟨[], ?_, by simp [encodeWith, hui]⟩
    rw [if_pos hui, List.nil_append, splitAtLast_of_not_mem hnoAt]
  · refine ⟨ui, ?_, encodeWith_eq_self huiok⟩
    have h₁ : (ui ++ ['@']) ++ hostpc = ui ++ '@' :: hostpc := by simp
    rw [if_neg hui, h₁, splitAtLast_append hnoAt]

theorem no_at_hostpc (host pc : List Char)
    (hhostok : ∀ c ∈ host, forbiddenHostChar c = false)
    (hpcAt : '@' ∉ pc) : '@' ∉ host ++ pc := by
  intro hmem
  rcases List.mem_append.mp hmem with hm | hm
  · exact absurd (hhostok _ hm) (by decide)
  · exact hpcAt hm

theorem colon_stage (sch host : List Char) (port : Option Nat) (pc : List Char)
    (hpc : pc = match port with | none => [] | some n => ':' :: Fmt.natToDec n)
    (hhostok : ∀ c ∈ host, forbiddenHostChar c = false)
    (hportok : ∀ n ∈ port, n ≤ 65535 ∧ isDefaultPort sch n = false) :
    ∃ portRaw,
      (match splitAtLast ':' (host ++ pc) with
        | some (h₀, p) => (h₀, some p)
        | none => (host ++ pc, none)) = (host, portRaw) ∧
        parsePort sch portRaw = some port := by
  have hnc : ':' ∉ host := by
    intro hm
    exact absurd (hhostok _ hm) (by decide)
  rcases port with _ | n
  · simp only at hpc
    subst hpc
    refine ⟨none, ?_, rfl⟩
    simp [splitAtLast_of_not_mem hnc]
  · simp only at hpc
    subst hpc
    refine ⟨some (Fmt.natToDec n), ?_, ?_⟩
    · have hdig : ':' ∉ Fmt.natToDec n := by
        intro hm
        exact absurd (Fmt.natToDec_all_digit n _ hm) (by decide)
      rw [splitAtLast_append hdig]
    · obtain ⟨d, ds, hd⟩ := List.exists_cons_of_ne_nil (Fmt.natToDec_ne_nil n)
      have hall : (d :: ds).all isAsciiDigit = true := by
        rw [← hd]
        exact List.all_eq_true.mpr (Fmt.natToDec_all_digit n)
      have hdec : decToNat (d :: ds) = n := by
        rw [← hd]
        exact Fmt.decToNat_natToDec n
      have hok := hportok n rfl
      have hpp : parsePort sch (some (d :: ds)) =
          (if (d :: ds).all isAsciiDigit then
            (if 65535 < decToNat (d :: ds) then none
              else if isDefaultPort sch (decToNat (d :: ds)) then some none
              else some (some (decToNat (d :: ds)))) else none) := rfl
      rw [hd, hpp, if_pos hall, hdec, if_neg (by omega : ¬ 65535 < n), hok.2]
      simp

theorem pathQuery_stage (pt : List Char) (query : Option (List Char)) (qc : List Char)
    (hqc : qc = match query with | none => [] | some q => '?' :: q)
    (hptok : ∀ c ∈ '/' :: pt, inPathSet c = false ∧ c ≠ '\\')
    (hqok : ∀ q ∈ query, ∀ c ∈ q, inQuerySpecialSet c = false) :
    ('/' :: (pt ++ qc)).takeWhile (fun c => !isPathTerm c) = '/' :: pt ∧
      ('/' :: (pt ++ qc)).dropWhile (fun c => !isPathTerm c) = qc ∧
      splitQueryFragment inQuerySpecialSet qc = (query, none) := by
  have hall : ∀ c ∈ '/' :: pt, (!isPathTerm c) = true :=
    fun c hc => not_pathTerm_of_not_path (hptok c hc).1
  rcases query with _ | q
  · simp only at hqc
    subst hqc
    refine ⟨?_, ?_, rfl⟩
    · simpa using ListH.takeWhile_eq_self_of_all hall
    · simpa using ListH.dropWhile_eq_nil_of_all hall
  · simp only at hqc
    subst hqc
    have hshape : '/' :: (pt ++ '?' :: q) = ('/' :: pt) ++ '?' :: q := by simp
    have hq : (!isPathTerm '?') = false := by decide
    have hqall : ∀ c ∈ q, (c != '#') = true := by
      intro c hc
      have h₁ := hqok q rfl c hc
      cases h₂ : (c != '#')
      · exfalso
        simp only [bne_eq_false_iff_eq] at h₂
        subst h₂
        exact absurd h₁ (by decide)
      · rfl
    refine ⟨?_, ?_, ?_⟩
    · rw [hshape, ListH.takeWhile_append_of_all hall, List.takeWhile_cons, hq]
      simp
    · rw [hshape, ListH.dropWhile_append_of_all hall, List.dropWhile_cons, hq]
      simp
    · simp only [splitQueryFragment, if_pos rfl]
      rw [ListH.takeWhile_eq_self_of_all hqall, ListH.dropWhile_eq_nil_of_all hqall,
        encodeWith_eq_self (hqok q rfl)]
      simp

theorem parseSpecialRest_reconstruct (sch ui host : List Char) (port : Option Nat)
    (pt : List Char) (query : Option (List Char)) (pc qc : List Char)
    (hpc : pc = match port with | none => [] | some n => ':' :: Fmt.natToDec n)
    (hqc : qc = match query with | none => [] | some q => '?' :: q)
    (h : IsNormalized ⟨sch, ui, host, port, '/' :: pt, query, none⟩) :
    parseSpecialRest sch ('/' :: '/' ::
      ((if ui = [] then [] else ui ++ ['@']) ++ (host ++ (pc ++ (('/' :: pt) ++ qc))))) =
      some ⟨sch, ui, host, port, '/' :: pt, query, none⟩ := by
  have huiok : ∀ c ∈ ui, inUserinfoSet c = false := h.ui_ok
  have hhostne : host ≠ [] := h.host_ne
  have hhostok : ∀ c ∈ host, forbiddenHostChar c = false := h.host_ok
  have hhostlow : lowerStr host = host := h.host_lower
  have hportok : ∀ n ∈ port, n ≤ 65535 ∧ isDefaultPort sch n = false := h.port_ok
  have hpathok : ∀ c ∈ '/' :: pt, inPathSet c = false ∧ c ≠ '\\' := h.path_ok
  have hfq : ∀ q ∈ query, ∀ c ∈ q, inQuerySpecialSet c = false := h.query_ok
  have hpcall : ∀ c ∈ pc, (!isAuthorityTerm c) = true := by
    rcases port with _ | n
    · simp only at hpc
      subst hpc
      intro c hc
      cases hc
    · simp only at hpc
      subst hpc
      intro c hc
      rcases List.mem_cons.mp hc with hc | hc
      · subst hc
        decide
      · exact not_authTerm_of_digit (Fmt.natToDec_all_digit n c hc)
  have hpcAt : '@' ∉ pc := by
    rcases port with _ | n
    · simp only at hpc
      subst hpc
      intro hc
      cases hc
    · simp only at hpc
      subst hpc
      intro hc
      rcases List.mem_cons.mp hc with hc | hc
      · cases hc
      · exact ne_of_digit_at (Fmt.natToDec_all_digit n '@' hc) rfl
  have hAall := authority_all ui host pc huiok hhostok hpcall
  have hnoAt := no_at_hostpc host pc hhostok hpcAt
  have hXA : (if ui = [] then [] else ui ++ ['@']) ++ (host ++ (pc ++ (('/' :: pt) ++ qc))) =
      ((if ui = [] then [] else ui ++ ['@']) ++ (host ++ pc)) ++ '/' :: (pt ++ qc) := by
    simp [List.append_assoc]
  obtain ⟨uiRaw, hAt, hUenc⟩ := atSplit_stage ui (host ++ pc) hnoAt huiok
  obtain ⟨portRaw, hCol, hPP⟩ := colon_stage sch host port pc hpc hhostok hportok
  have hstage := takeDropAuth_stage
    ((if ui = [] then [] else ui ++ ['@']) ++ (host ++ pc)) (pt ++ qc) hAall
  have hpq := pathQuery_stage pt query qc hqc hpathok hfq
  have hany : host.any forbiddenHostChar = false := by
    rw [List.any_eq_false]
    intro c hc
    simp [hhostok c hc]
  simp only [parseSpecialRest]
  rw [dropSlash_stage ui host _ huiok hhostne hhostok]
  rw [hXA]
  rw [hstage.1]
  rw [hstage.2]
  rw [hAt]
  simp only []
  rw [hCol]
  simp only []
  rw [hhostlow, if_neg hhostne, hany]
  simp only [Bool.false_eq_true, if_false]
  rw [hPP]
  simp only []
  rw [hpq.1, hpq.2.1, hpq.2.2]
  have hmap : List.map slashToSlash ('/' :: pt) = '/' :: pt :=
    map_eq_self_of fun c hc => by
      have h₁ := (hpathok c hc).2
      simp [slashToSlash, h₁]
  have henc : encodeWith inPathSet ('/' :: pt) = '/' :: pt :=
    encodeWith_eq_self fun c hc => (hpathok c hc).1
  rw [if_neg (by simp : ¬ ('/' :: pt = [])), hmap, henc, hUenc]

theorem splitScheme_concrete (sch rest : List Char)
    (hsch : sch = "http".data ∨ sch = "https".data) :
    splitScheme (sch ++ ':' :: rest) = some (sch, rest) := by
  have e₁ : isSchemeChar 'h' = true := by decide
  have e₂ : isSchemeChar 't' = true := by decide
  have e₃ : isSchemeChar 'p' = true := by decide
  have e₄ : isSchemeChar 's' = true := by decide
  have e₅ : isSchemeChar ':' = false := by decide
  have e₆ : isAsciiAlpha 'h' = true := by decide
  rcases hsch with hs | hs <;> subst hs <;>
    simp [splitScheme, List.dropWhile_cons, List.takeWhile_cons, e₁, e₂, e₃, e₄, e₅, e₆,
      lowerStr, lowerChar]

theorem mem_serialize_gt32 (sch ui host : List Char) (port : Option Nat)
    (pt : List Char) (query : Option (List Char))
    (h : IsNormalized ⟨sch, ui, host, port, '/' :: pt, query, none⟩) :
    ∀ c ∈ serializeURL ⟨sch, ui, host, port, '/' :: pt, query, none⟩, 32 < c.toNat := by
  intro c hc
  have hsp : isSpecialScheme sch = true := by
    rcases h.scheme_http with hs | hs <;> simp only at hs <;> subst hs <;> decide
  simp only [serializeURL, hsp, if_pos, List.append_assoc, List.mem_append] at hc
  rcases hc with hc | hc
  · rcases h.scheme_http with hs | hs <;> simp only at hs <;> subst hs <;>
      · simp at hc
        rcases hc with rfl | rfl | rfl | rfl <;> decide
  rcases hc with hc | hc
  · simp at hc
    rcases hc with rfl | rfl | rfl <;> decide
  rcases hc with hc | hc
  · by_cases hui : ui = []
    · rw [if_pos hui] at hc
      cases hc
    · rw [if_neg hui] at hc
      rcases List.mem_append.mp hc with hm | hm
      · exact gt32_of_not_query (not_query_of_not_path (not_path_of_not_userinfo
          (h.ui_ok c hm)))
      · simp at hm
        subst hm
        decide
  rcases hc with hc | hc
  · exact gt32_of_not_forbidden (h.host_ok c hc)
  rcases hc with hc | hc
  · have hport : ∀ c₁ ∈ (match port with | none => [] | some n => ':' :: Fmt.natToDec n),
        32 < c₁.toNat := by
      rcases port with _ | n
      · intro c₁ hm
        cases hm
      · intro c₁ hm
        rcases List.mem_cons.mp hm with hm | hm
        · subst hm
          decide
        · have hd := Fmt.natToDec_all_digit n c₁ hm
          simp only [isAsciiDigit, decide_eq_true_eq] at hd
          omega
    exact hport c hc
  rcases hc with hc | hc
  · exact gt32_of_not_query (not_query_of_not_path (h.path_ok c hc).1)
  · have hquery : ∀ c₁ ∈ (match query with | none => [] | some q => '?' :: q),
        32 < c₁.toNat := by
      rcases query with _ | q
      · intro c₁ hm
        cases hm
      · intro c₁ hm
        rcases List.mem_cons.mp hm with hm | hm
        · subst hm
          decide
        · exact gt32_of_not_query (not_query_of_not_querySpecial (h.query_ok q rfl c₁ hm))
    rcases hc with hc | hc
    · exact hquery c hc
    · cases hc

theorem parse_serialize (r : UrlRec) (h : IsNormalized r) :
    parseURL (serializeURL r) = some r := by
  obtain ⟨sch, ui, host, port, path, query, frag⟩ := r
  have hfrag : frag = none := h.frag_none
  subst hfrag
  obtain ⟨pt, hpt⟩ := h.path_head
  simp only at hpt
  subst hpt
  have hsp : isSpecialScheme sch = true := by
    rcases h.scheme_http with hs | hs <;> simp only at hs <;> subst hs <;> decide
  have hall := mem_serialize_gt32 sch ui host port pt query h
  have htrim : urlTrim (serializeURL ⟨sch, ui, host, port, '/' :: pt, query, none⟩) =
      serializeURL ⟨sch, ui, host, port, '/' :: pt, query, none⟩ := by
    have h₁ : ∀ c ∈ serializeURL ⟨sch, ui, host, port, '/' :: pt, query, none⟩,
        (decide (c.toNat ≤ 32)) = false := by
      intro c hc
      have h₂ := hall c hc
      simp
      omega
    unfold urlTrim
    rw [ListH.dropWhile_eq_self_of_all h₁]
    rw [ListH.dropWhile_eq_self_of_all (by
      intro c hc
      exact h₁ c (List.mem_reverse.mp hc))]
    simp
  have hfilt : (serializeURL ⟨sch, ui, host, port, '/' :: pt, query, none⟩).filter
      (fun c => !(c.toNat == 9 || c.toNat == 10 || c.toNat == 13)) =
      serializeURL ⟨sch, ui, host, port, '/' :: pt, query, none⟩ := by
    rw [List.filter_eq_self]
    intro c hc
    have h₂ := hall c hc
    simp
    omega
  have hrec := parseSpecialRest_reconstruct sch ui host port pt query _ _ rfl rfl h
  simp only [parseURL]
  rw [htrim, hfilt]
  simp only [serializeURL, hsp, if_pos, List.append_assoc, List.cons_append,
    List.nil_append, List.append_nil]
  rw [splitScheme_concrete sch _ (by
    have h₃ := h.scheme_http
    simpa using h₃)]
  simp only [hsp, if_pos]
  exact hrec

theorem takeWhile_head {p : Char → Bool} {l : List Char} {c : Char} {t : List Char}
    (h : l.takeWhile p = c :: t) : p c = true ∧ ∃ t₂, l = c :: t₂ := by
  induction l with
  | nil => simp at h
  | cons x xs ih =>
    rw [List.takeWhile_cons] at h
    by_cases hx : p x
    · simp only [hx, if_true] at h
      have h₁ : x = c := by
        rw [List.cons.injEq x (List.takeWhile p xs) c t] at h
        exact h.1
      subst h₁
      exact ⟨hx, xs, rfl⟩
    · simp [hx] at h

theorem utf8Bytes_ne_nil (c : Char) : utf8Bytes c ≠ [] := by
  simp only [utf8Bytes]
  by_cases h1 : c.toNat < 128
  · simp [h1]
  · by_cases h2 : c.toNat < 2048
    · simp [h1, h2]
    · by_cases h3 : c.toNat < 65536 <;> simp [h1, h2, h3]

theorem encodeWith_ne_nil {inSet : Char → Bool} {c : Char} {cs : List Char} :
    encodeWith inSet (c :: cs) ≠ [] := by
  simp only [encodeWith]
  by_cases hs : inSet c
  · rw [if_pos hs]
    obtain ⟨b, bs, hb⟩ := List.exists_cons_of_ne_nil (utf8Bytes_ne_nil c)
    simp [pctEncodeChar, hb, pctBytes]
  · simp [if_neg hs]

theorem mem_map_slash_ne_backslash {l : List Char} :
    ∀ c ∈ l.map slashToSlash, c ≠ '\\' := by
  intro c hc
  obtain ⟨y, _, hy⟩ := List.mem_map.mp hc
  subst hy
  by_cases hb : y = '\\' <;> simp [slashToSlash, hb]

theorem hexDigitChar_ne_backslash {n : Nat} (hn : n < 16) : hexDigitChar n ≠ '\\' := by
  interval_cases n <;> decide

theorem path_encode_ok {l : List Char} :
    ∀ c ∈ encodeWith inPathSet (l.map slashToSlash), inPathSet c = false ∧ c ≠ '\\' := by
  intro c hc
  rcases mem_encodeWith_structure c hc with ⟨c₀, hm, hp, he⟩ | he | ⟨n, hn, he⟩
  · rw [he]
    exact ⟨hp, mem_map_slash_ne_backslash c₀ hm⟩
  · rw [he]
    exact ⟨by decide, by decide⟩
  · rw [he]
    exact ⟨path_hex n hn, hexDigitChar_ne_backslash hn⟩

theorem parsePort_ok {sch : List Char} {praw : Option (List Char)} {port : Option Nat}
    (h : parsePort sch praw = some port) :
    ∀ n ∈ port, n ≤ 65535 ∧ isDefaultPort sch n = false := by
  match praw with
  | none =>
    simp only [parsePort, Option.some.injEq] at h
    subst h
    intro n hn
    cases hn
  | some [] =>
    simp only [parsePort, Option.some.injEq] at h
    subst h
    intro n hn
    cases hn
  | some (d :: ds) =>
    have hpp : parsePort sch (some (d :: ds)) =
        (if (d :: ds).all isAsciiDigit then
          (if 65535 < decToNat (d :: ds) then none
            else if isDefaultPort sch (decToNat (d :: ds)) then some none
            else some (some (decToNat (d :: ds)))) else none) := rfl
    rw [hpp] at h
    by_cases hall : (d :: ds).all isAsciiDigit
    · rw [if_pos hall] at h
      by_cases hlt : 65535 < decToNat (d :: ds)
      · rw [if_pos hlt] at h
        cases h
      · rw [if_neg hlt] at h
        by_cases hdef : isDefaultPort sch (decToNat (d :: ds))
        · rw [if_pos hdef] at h
          simp only [Option.some.injEq] at h
          subst h
          intro n hn
          cases hn
        · rw [if_neg hdef] at h
          simp only [Option.some.injEq] at h
          subst h
          intro n hn
          rcases Option.mem_def.mp hn with hn₁
          cases hn₁
          constructor
          · omega
          · simpa using hdef
    · rw [if_neg hall] at h
      cases h

theorem splitQueryFragment_inv {qset : Char → Bool} {l : List Char}
    (hpct : qset '%' = false) (hhex : ∀ n, n < 16 → qset (hexDigitChar n) = false) :
    ∀ q, (splitQueryFragment qset l).1 = some q → ∀ c ∈ q, qset c = false := by
  intro q hq c hc
  match l with
  | [] => cases hq
  | x :: rest =>
    simp only [splitQueryFragment] at hq
    by_cases hx : x = '?'
    · rw [if_pos hx] at hq
      simp only [Option.some.injEq] at hq
      subst hq
      exact mem_encodeWith hpct hhex c hc
    · rw [if_neg hx] at hq
      cases hq

theorem parseSpecialRest_normalized {scheme rest : List Char} {p : UrlRec}
    (hp : parseSpecialRest scheme rest = some p)
    (hsch : scheme = "http".data ∨ scheme = "https".data) :
    IsNormalized { p with fragment := none } := by
  simp only [parseSpecialRest] at hp
  split at hp
  · cases hp
  · next hne =>
    split at hp
    · cases hp
    · next hforb =>
      split at hp
      · cases hp
      · next hgen port hport =>
        simp only [Option.some.injEq] at hp
        subst hp
        refine ⟨hsch, ?_, hne, ?_, lowerStr_idem _, parsePort_ok hport, ?_, ?_, ?_, ?_, rfl⟩
        · exact mem_encodeWith userinfo_pct userinfo_hex
        · intro c hc
          have h₂ := List.any_eq_false.mp (by simpa using hforb) c hc
          simpa using h₂
        · by_cases hraw : List.takeWhile (fun c => !isPathTerm c)
              (List.dropWhile (fun c => !isAuthorityTerm c)
                (List.dropWhile (fun c => c == '/' || c == '\\') rest)) = []
          · simp [hraw]
          · simp only [if_neg hraw]
            obtain ⟨c, t, hct⟩ := List.exists_cons_of_ne_nil hraw
            rw [hct]
            exact encodeWith_ne_nil
        · by_cases hraw : List.takeWhile (fun c => !isPathTerm c)
              (List.dropWhile (fun c => !isAuthorityTerm c)
                (List.dropWhile (fun c => c == '/' || c == '\\') rest)) = []
          · simp [hraw]
          · simp only [if_neg hraw]
            obtain ⟨c, t, hct⟩ := List.exists_cons_of_ne_nil hraw
            obtain ⟨hpterm, t₂, hafter⟩ := takeWhile_head hct
            have hfail := ListH.dropWhile_head_false hafter
            have hterm : isAuthorityTerm c = true := by
              cases h₃ : isAuthorityTerm c
              · rw [h₃] at hfail
                cases hfail
              · rfl
            have hc : c = '/' ∨ c = '\\' := by
              rcases authTerm_chars hterm with h₃ | h₃ | h₃ | h₃
              · exact Or.inl h₃
              · exact Or.inr h₃
              · subst h₃
                cases hpterm
              · subst h₃
                cases hpterm
            have hslash : slashToSlash c = '/' := by
              rcases hc with h₃ | h₃ <;> subst h₃ <;> simp [slashToSlash]
            rw [hct]
            simp only [List.map_cons, hslash, encodeWith]
            rw [if_neg (by decide : ¬ inPathSet '/' = true)]
            exact ⟨encodeWith inPathSet (List.map slashToSlash t), rfl⟩
        · by_cases hraw : List.takeWhile (fun c => !isPathTerm c)
              (List.dropWhile (fun c => !isAuthorityTerm c)
                (List.dropWhile (fun c => c == '/' || c == '\\') rest)) = []
          · intro c hc
            rw [if_pos hraw] at hc
            simp at hc
            subst hc
            exact ⟨by decide, by decide⟩
          · intro c hc
            rw [if_neg hraw] at hc
            exact path_encode_ok c hc
        · intro q hq
          exact splitQueryFragment_inv querySpecial_pct querySpecial_hex q (by
            simpa using hq)

theorem parseSpecialRest_scheme {scheme rest : List Char} {p : UrlRec}
    (hp : parseSpecialRest scheme rest = some p) : p.scheme = scheme := by
  simp only [parseSpecialRest] at hp
  split at hp
  · cases hp
  · split at hp
    · cases hp
    · split at hp
      · cases hp
      · simp only [Option.some.injEq] at hp
        subst hp
        rfl

theorem parseURL_normalized {cs : List Char} {p : UrlRec}
    (hp : parseURL cs = some p)
    (hsch : p.scheme = "http".data ∨ p.scheme = "https".data) :
    IsNormalized { p with fragment := none } := by
  simp only [parseURL] at hp
  split at hp
  · cases hp
  · next scheme rest heq =>
    split at hp
    · have hs := parseSpecialRest_scheme hp
      rw [hs] at hsch
      exact parseSpecialRest_normalized hp hsch
    · next hnsp =>
      simp only [Option.some.injEq] at hp
      have hps : p.scheme = scheme := by
        rw [← hp]
      exfalso
      apply hnsp
      rw [hps] at hsch
      rcases hsch with hs | hs <;> rw [hs] <;> decide

end Url

namespace Norm

theorem tryParseCandidate_inv {candidate : List Char} {parsed : Url.UrlRec}
    (h : tryParseCandidate candidate = some parsed) :
    Url.parseURL candidate = some parsed ∨
      Url.parseURL ("https://".data ++ candidate) = some parsed := by
  unfold tryParseCandidate at h
  split at h
  · next heq =>
    simp only [Option.some.injEq] at h
    subst h
    exact Or.inl heq
  · exact Or.inr h

theorem protocol_scheme {p : Url.UrlRec}
    (h : (Url.protocol p == "http:".data || Url.protocol p == "https:".data) = true) :
    p.scheme = "http".data ∨ p.scheme = "https".data := by
  simp only [Bool.or_eq_true, beq_iff_eq, Url.protocol] at h
  rcases h with h | h
  · left
    have h₂ : p.scheme ++ [':'] = "http".data ++ [':'] := by
      rw [h]
      rfl
    exact List.append_cancel_right h₂
  · right
    have h₂ : p.scheme ++ [':'] = "https".data ++ [':'] := by
      rw [h]
      rfl
    exact List.append_cancel_right h₂

theorem normalizeSingleUrlRec_spec {domains : List (List Char)} {candidate : List Char}
    {r : Url.UrlRec} (h : normalizeSingleUrlRec domains candidate = some r) :
    Url.IsNormalized r ∧ isPrivateHostname r.host = false ∧
      isAllowedDomain domains r.host = true := by
  simp only [normalizeSingleUrlRec] at h
  split at h
  · cases h
  · split at h
    · cases h
    · next parsed hparse =>
      split at h
      · cases h
      · next hproto =>
        split at h
        · cases h
        · next hpriv =>
          split at h
          · cases h
          · next hallow =>
            simp only [Option.some.injEq] at h
            subst h
            have hsch : parsed.scheme = "http".data ∨ parsed.scheme = "https".data := by
              apply protocol_scheme
              simp only [Bool.not_eq_true', Bool.not_eq_false] at hproto
              exact hproto
            have hnorm : Url.IsNormalized { parsed with fragment := none } := by
              rcases tryParseCandidate_inv hparse with hp | hp
              · exact Url.parseURL_normalized hp hsch
              · exact Url.parseURL_normalized hp hsch
            have hlow : Url.lowerStr parsed.host = parsed.host := hnorm.host_lower
            refine ⟨hnorm, ?_, ?_⟩
            · simp only [Bool.not_eq_true] at hpriv
              simpa [hlow] using hpriv
            · simp only [Bool.not_eq_true', Bool.not_eq_false] at hallow
              simpa [hlow] using hallow

end Norm

namespace Url

theorem mem_serialize_not_jsws (sch ui host : List Char) (port : Option Nat)
    (pt : List Char) (query : Option (List Char))
    (h : IsNormalized ⟨sch, ui, host, port, '/' :: pt, query, none⟩) :
    ∀ c ∈ serializeURL ⟨sch, ui, host, port, '/' :: pt, query, none⟩,
      isJsWhitespace c = false := by
  intro c hc
  have hsp : isSpecialScheme sch = true := by
    rcases h.scheme_http with hs | hs <;> simp only at hs <;> subst hs <;> decide
  simp only [serializeURL, hsp, if_pos, List.append_assoc, List.mem_append] at hc
  rcases hc with hc | hc
  · rcases h.scheme_http with hs | hs <;> simp only at hs <;> subst hs <;>
      · simp at hc
        rcases hc with rfl | rfl | rfl | rfl <;> decide
  rcases hc with hc | hc
  · simp at hc
    rcases hc with rfl | rfl | rfl <;> decide
  rcases hc with hc | hc
  · by_cases hui : ui = []
    · rw [if_pos hui] at hc
      cases hc
    · rw [if_neg hui] at hc
      rcases List.mem_append.mp hc with hm | hm
      · have hq := not_query_of_not_path (not_path_of_not_userinfo (h.ui_ok c hm))
        exact notjsws_of_range (gt32_of_not_query hq) (le126_of_not_query hq)
      · simp at hm
        subst hm
        decide
  rcases hc with hc | hc
  · exact notjsws_of_not_forbidden (h.host_ok c hc)
  rcases hc with hc | hc
  · have hport : ∀ c₁ ∈ (match port with | none => [] | some n => ':' :: Fmt.natToDec n),
        isJsWhitespace c₁ = false := by
      rcases port with _ | n
      · intro c₁ hm
        cases hm
      · intro c₁ hm
        rcases List.mem_cons.mp hm with hm | hm
        · subst hm
          decide
        · have hd := Fmt.natToDec_all_digit n c₁ hm
          simp only [isAsciiDigit, decide_eq_true_eq] at hd
          exact notjsws_of_range (by omega) (by omega)
    exact hport c hc
  rcases hc with hc | hc
  · have hq := not_query_of_not_path (h.path_ok c hc).1
    exact notjsws_of_range (gt32_of_not_query hq) (le126_of_not_query hq)
  · have hquery : ∀ c₁ ∈ (match query with | none => [] | some q => '?' :: q),
        isJsWhitespace c₁ = false := by
      rcases query with _ | q
      · intro c₁ hm
        cases hm
      · intro c₁ hm
        rcases List.mem_cons.mp hm with hm | hm
        · subst hm
          decide
        · have hq := not_query_of_not_querySpecial (h.query_ok q rfl c₁ hm)
          exact notjsws_of_range (gt32_of_not_query hq) (le126_of_not_query hq)
    rcases hc with hc | hc
    · exact hquery c hc
    · cases hc

theorem serializeURL_eta (r : UrlRec) (h : IsNormalized r) :
    { r with fragment := none } = r := by
  have hf := h.frag_none
  cases r
  simp only at hf
  subst hf
  rfl

theorem serializeURL_ne_nil (r : UrlRec) (h : IsNormalized r) : serializeURL r ≠ [] := by
  have hsp : isSpecialScheme r.scheme = true := by
    rcases h.scheme_http with hs | hs <;> rw [hs] <;> decide
  simp only [serializeURL, hsp, if_pos]
  rcases h.scheme_http with hs | hs <;> rw [hs] <;> simp

theorem jsTrim_serializeURL (r : UrlRec) (h : IsNormalized r) :
    jsTrim (serializeURL r) = serializeURL r := by
  obtain ⟨sch, ui, host, port, path, query, frag⟩ := r
  have hfrag : frag = none := h.frag_none
  subst hfrag
  obtain ⟨pt, hpt⟩ := h.path_head
  simp only at hpt
  subst hpt
  have hall := mem_serialize_not_jsws sch ui host port pt query h
  unfold jsTrim
  rw [ListH.dropWhile_eq_self_of_all hall]
  rw [ListH.dropWhile_eq_self_of_all (by
    intro c hc
    exact hall c (List.mem_reverse.mp hc))]
  simp

end Url

namespace Norm

theorem normalizeSingleUrl_self (domains : List (List Char)) (r : Url.UrlRec)
    (hr : Url.IsNormalized r) (hpriv : isPrivateHostname r.host = false)
    (hallow : isAllowedDomain domains r.host = true)
    (hlen : (Url.serializeURL r).length ≤ 2048) :
    normalizeSingleUrl domains (Url.serializeURL r) = some (Url.serializeURL r) := by
  have hne := Url.serializeURL_ne_nil r hr
  have heta := Url.serializeURL_eta r hr
  have htry : tryParseCandidate (Url.serializeURL r) = some r := by
    unfold tryParseCandidate
    rw [Url.parse_serialize r hr]
  have hproto : (Url.protocol r == "http:".data || Url.protocol r == "https:".data) = true := by
    rcases hr.scheme_http with hs | hs <;> rw [Url.protocol, hs] <;> decide
  unfold normalizeSingleUrl
  simp only [normalizeSingleUrlRec]
  rw [if_neg (by
    push_neg
    exact ⟨hne, by omega⟩)]
  rw [htry]
  simp only [hproto, Bool.not_true, Bool.false_eq_true, if_false]
  rw [hr.host_lower, hpriv, hallow]
  simp only [Bool.false_eq_true, if_false, Bool.not_true, heta]
  simp

theorem normalizeSingleUrl_inv {domains : List (List Char)} {c v : List Char}
    (h : normalizeSingleUrl domains c = some v) :
    ∃ r, normalizeSingleUrlRec domains c = some r ∧ v = Url.serializeURL r := by
  unfold normalizeSingleUrl at h
  obtain ⟨r, hr, hv⟩ := Option.map_eq_some'.mp h
  exact ⟨r, hr, hv.symm⟩

theorem findSome_inv {α β : Type} {f : α → Option β} {l : List α} {v : β}
    (h : l.findSome? f = some v) : ∃ c ∈ l, f c = some v := by
  induction l with
  | nil => cases h
  | cons a l ih =>
    rw [List.findSome?_cons] at h
    cases hfa : f a with
    | some b =>
      rw [hfa] at h
      exact ⟨a, List.mem_cons_self a l, hfa.trans h⟩
    | none =>
      rw [hfa] at h
      obtain ⟨c, hc, hcv⟩ := ih h
      exact ⟨c, List.mem_cons_of_mem a hc, hcv⟩

theorem normalizeInputUrl_inv {domains : List (List Char)}
    {extractor : List Char → List (List Char)} {input v : List Char}
    (h : normalizeInputUrl domains extractor input = some v) :
    ∃ c r, normalizeSingleUrlRec domains c = some r ∧ v = Url.serializeURL r := by
  simp only [normalizeInputUrl] at h
  split at h
  · cases h
  · split at h
    · cases h
    · split at h
      · next direct hdirect =>
        simp only [Option.some.injEq] at h
        subst h
        split at hdirect
        · obtain ⟨r, hr, hv⟩ := normalizeSingleUrl_inv hdirect
          exact ⟨_, r, hr, hv⟩
        · cases hdirect
      · obtain ⟨c, _, hc⟩ := findSome_inv h
        obtain ⟨r, hr, hv⟩ := normalizeSingleUrl_inv hc
        exact ⟨c, r, hr, hv⟩

theorem normalizeInputUrl_idem {domains : List (List Char)}
    {extractor : List Char → List (List Char)} {input v : List Char}
    (h : normalizeInputUrl domains extractor input = some v)
    (hlen : v.length ≤ 2048) :
    normalizeInputUrl domains extractor v = some v := by
  obtain ⟨c, r, hrec, hv⟩ := normalizeInputUrl_inv h
  subst hv
  obtain ⟨hnorm, hpriv, hallow⟩ := normalizeSingleUrlRec_spec hrec
  have hself := normalizeSingleUrl_self domains r hnorm hpriv hallow hlen
  have hne := Url.serializeURL_ne_nil r hnorm
  have htrim := Url.jsTrim_serializeURL r hnorm
  simp only [normalizeInputUrl]
  rw [if_neg hne]
  simp only [htrim]
  rw [if_neg hne, if_pos hlen, hself]

end Norm

/-- C1 (amended): the SSRF guard is per candidate, not per input string.
Any candidate URL whose parsed hostname is private (private IPv4 ranges,
`localhost`, `.local`/`.internal` suffixes, or empty) is rejected by
`normalizeSingleUrl`; and every accepted `NormalizedUrl` parses to a
non-private hostname in the allow-list under an http(s) scheme.  (An input
STRING containing a private-IP URL is not thereby rejected: a different,
allowed candidate in the same string can still be returned — see the
counterexample.) -/
theorem claim_C1 :
    (∀ (domains : List (List Char)) (c : List Char) (p : Url.UrlRec),
        Norm.tryParseCandidate c = some p →
        Norm.isPrivateHostname (Url.lowerStr p.host) = true →
        Norm.normalizeSingleUrl domains c = none) ∧
    (∀ (domains : List (List Char)) (extractor : List Char → List (List Char))
        (input v : List Char),
        Norm.normalizeInputUrl domains extractor input = some v →
        ∃ r, Url.parseURL v = some r ∧ Norm.isPrivateHostname r.host = false ∧
          Norm.isAllowedDomain domains r.host = true ∧
          (r.scheme = "http".data ∨ r.scheme = "https".data)) := by
  constructor
  · intro domains c p htry hpriv
    simp only [Norm.normalizeSingleUrl, Norm.normalizeSingleUrlRec]
    by_cases hbad : (c = [] ∨ 2048 < c.length)
    · rw [if_pos hbad]
      rfl
    · rw [if_neg hbad, htry]
      by_cases hproto : (Url.protocol p == "http:".data || Url.protocol p == "https:".data)
      · simp [hproto, hpriv]
      · simp [hproto]
  · intro domains extractor input v h
    obtain ⟨c, r, hrec, hv⟩ := Norm.normalizeInputUrl_inv h
    subst hv
    obtain ⟨hnorm, hpriv, hallow⟩ := Norm.normalizeSingleUrlRec_spec hrec
    exact ⟨r, Url.parse_serialize r hnorm, hpriv, hallow, hnorm.scheme_http⟩

theorem claim_C1_witness :
    ((Norm.tryParseCandidate ("http://127.0.0.1".data) = some c1PrivateRec ∧
        Norm.isPrivateHostname (Url.lowerStr c1PrivateRec.host) = true) ∧
      Norm.normalizeSingleUrl Norm.biliDomains ("http://127.0.0.1".data) = none ∧
        Norm.normalizeSingleUrl Norm.xhsDomains ("http://127.0.0.1".data) = none) ∧
    (Norm.normalizeInputUrl Norm.biliDomains Norm.extractCandidateUrlsBili
        ("https://b23.tv/abc".data) = some ("https://b23.tv/abc".data) ∧
      ∃ r, Url.parseURL ("https://b23.tv/abc".data) = some r ∧
        Norm.isPrivateHostname r.host = false ∧
        Norm.isAllowedDomain Norm.biliDomains r.host = true ∧
        (r.scheme = "http".data ∨ r.scheme = "https".data)) :=
  ⟨⟨⟨by decide, by decide⟩,
      claim_C1.1 Norm.biliDomains ("http://127.0.0.1".data) c1PrivateRec (by decide) (by decide),
      claim_C1.1 Norm.xhsDomains ("http://127.0.0.1".data) c1PrivateRec (by decide) (by decide)⟩,
    by decide,
    claim_C1.2 Norm.biliDomains Norm.extractCandidateUrlsBili ("https://b23.tv/abc".data)
      ("https://b23.tv/abc".data) (by decide)⟩

/-- C1 counterexample to the original wording: an input containing a
private-IP URL (`http://127.0.0.1`, among the extracted candidates and
private) is NOT mapped to `null` when an allowed URL appears alongside —
the normalizer returns the allowed URL. -/
theorem claim_C1_cex :
    ("http://127.0.0.1".data ∈ Norm.extractCandidateUrlsBili c1MixedInput.data) ∧
      Norm.isPrivateHostname (Url.lowerStr c1PrivateRec.host) = true ∧
      Norm.biliNormalizeInputUrl c1MixedInput =
        some "https://www.bilibili.com/video/BV1xx4y1x7Nq" :=
  ⟨by decide, by decide, by decide⟩

/-- C5 (amended): `normalizeInputUrl` is idempotent on the outputs it can
re-consume: whenever it returns `v` and `v` is within the 2048-character
URL bound, running it again on `v` returns `v` unchanged.  (Unrestricted
idempotence is false exactly at the boundary — see the counterexample,
where a 2048-character input normalizes to a 2049-character output that
the second run rejects.) -/
theorem claim_C5 (input v : String)
    (h : Norm.biliNormalizeInputUrl input = some v) (hlen : v.length ≤ 2048) :
    Norm.biliNormalizeInputUrl v = some v := by
  unfold Norm.biliNormalizeInputUrl at h ⊢
  obtain ⟨w, hw, hv⟩ := Option.map_eq_some'.mp h
  subst hv
  have hidem := Norm.normalizeInputUrl_idem hw (by
    have h₂ : (String.mk w).length = w.length := rfl
    rw [h₂] at hlen
    exact hlen)
  have hdata : (String.mk w).data = w := rfl
  rw [hdata, hidem]
  rfl

theorem claim_C5_witness :
    (Norm.biliNormalizeInputUrl "https://b23.tv/abc" = some "https://b23.tv/abc" ∧
      ("https://b23.tv/abc" : String).length ≤ 2048) ∧
      Norm.biliNormalizeInputUrl "https://b23.tv/abc" = some "https://b23.tv/abc" :=
  ⟨⟨by decide, by decide⟩, claim_C5 "https://b23.tv/abc" "https://b23.tv/abc"
    (by decide) (by decide)⟩

theorem aRun_chars : ∀ c ∈ aRun, c = 'a' := fun c hc => (List.mem_replicate.mp hc).2

theorem parse_u2048 : Url.parseURL u2048.data = some cexRec := by
  have hP : ∀ c ∈ "https://www.bilibili.com?".data, decide (c.toNat ≤ 32) = false := by decide
  have hgt : ∀ c ∈ "https://www.bilibili.com?".data ++ aRun,
      decide (c.toNat ≤ 32) = false := by
    intro c hc
    rcases List.mem_append.mp hc with hm | hm
    · exact hP c hm
    · rw [aRun_chars c hm]
      decide
  have htrim : Url.urlTrim ("https://www.bilibili.com?".data ++ aRun) =
      "https://www.bilibili.com?".data ++ aRun := by
    unfold Url.urlTrim
    rw [ListH.dropWhile_eq_self_of_all hgt,
      ListH.dropWhile_eq_self_of_all (fun c hc => hgt c (List.mem_reverse.mp hc)),
      List.reverse_reverse]
  have hfilt : ("https://www.bilibili.com?".data ++ aRun).filter
      (fun c => !(c.toNat == 9 || c.toNat == 10 || c.toNat == 13)) =
      "https://www.bilibili.com?".data ++ aRun := by
    rw [List.filter_eq_self]
    intro c hc
    have h₂ := hgt c hc
    simp at h₂ ⊢
    omega
  have e₂ : ("https://www.bilibili.com?".data ++ aRun) =
      "https".data ++ ':' :: ("//www.bilibili.com?".data ++ aRun) := rfl
  have hsplit := Url.splitScheme_concrete "https".data
    ("//www.bilibili.com?".data ++ aRun) (Or.inr rfl)
  have e₃ : ("//www.bilibili.com?".data ++ aRun) =
      '/' :: '/' :: ("www.bilibili.com".data ++ ('?' :: aRun)) := rfl
  show Url.parseURL ("https://www.bilibili.com?".data ++ aRun) = some cexRec
  simp only [Url.parseURL]
  rw [htrim, hfilt, e₂, hsplit]
  simp only []
  rw [if_pos (by decide : Url.isSpecialScheme "https".data = true)]
  simp only [Url.parseSpecialRest]
  rw [e₃]
  have hdrop2 : List.dropWhile (fun c => c == '/' || c == '\\')
      ('/' :: '/' :: ("www.bilibili.com".data ++ ('?' :: aRun))) =
      "www.bilibili.com".data ++ ('?' :: aRun) := by
    simp only [List.dropWhile_cons]
    norm_num
    decide
  rw [hdrop2]
  have hW : ∀ c ∈ "www.bilibili.com".data, (!Url.isAuthorityTerm c) = true := by decide
  rw [ListH.takeWhile_append_of_all hW, ListH.dropWhile_append_of_all hW]
  have hq : (!Url.isAuthorityTerm '?') = false := by decide
  rw [List.takeWhile_cons, List.dropWhile_cons, hq]
  simp only [Bool.false_eq_true, if_false, List.append_nil]
  rw [Url.splitAtLast_of_not_mem (by decide : '@' ∉ "www.bilibili.com".data)]
  simp only []
  rw [Url.splitAtLast_of_not_mem (by decide : ':' ∉ "www.bilibili.com".data)]
  simp only []
  rw [if_neg (by decide : ¬ (Url.lowerStr "www.bilibili.com".data = []))]
  rw [if_neg (by decide : ¬ ((Url.lowerStr "www.bilibili.com".data).any Url.forbiddenHostChar = true))]
  have hpp : Url.parsePort "https".data none = some none := rfl
  rw [hpp]
  simp only []
  have hterm : (!Url.isPathTerm '?') = false := by decide
  rw [List.takeWhile_cons, List.dropWhile_cons, hterm]
  simp only [Bool.false_eq_true, if_false, if_pos]
  have hqall : ∀ c ∈ aRun, (c != '#') = true := by
    intro c hc
    rw [aRun_chars c hc]
    decide
  have hqenc : ∀ c ∈ aRun, Url.inQuerySpecialSet c = false := by
    intro c hc
    rw [aRun_chars c hc]
    decide
  simp only [Url.splitQueryFragment, if_pos rfl]
  rw [ListH.takeWhile_eq_self_of_all hqall, ListH.dropWhile_eq_nil_of_all hqall,
    Url.encodeWith_eq_self hqenc]
  simp [cexRec, Url.lowerStr, Url.lowerChar]
  decide

theorem serialize_cexRec : Url.serializeURL cexRec = v2049.data := by
  show Url.serializeURL cexRec = "https://www.bilibili.com/?".data ++ aRun
  simp only [Url.serializeURL, cexRec]
  rw [if_pos (by decide : Url.isSpecialScheme "https".data = true)]
  simp only [List.append_nil, List.nil_append, List.append_assoc]
  rfl

theorem cexRec_normalized : Url.IsNormalized cexRec := by
  refine ⟨Or.inr rfl, ?_, by decide, ?_, by decide, ?_, by decide, ⟨[], rfl⟩, ?_, ?_, rfl⟩
  · intro c hc
    cases hc
  · intro c hc
    have h₂ : Url.forbiddenHostChar c = false := by
      revert c hc
      decide
    exact h₂
  · intro n hn
    cases hn
  · intro c hc
    simp only [cexRec] at hc
    simp at hc
    subst hc
    exact ⟨by decide, by decide⟩
  · intro q hq c hc
    simp only [cexRec, Option.mem_def, Option.some.injEq] at hq
    subst hq
    rw [aRun_chars c hc]
    decide

theorem normSingle_u2048 :
    Norm.normalizeSingleUrl Norm.biliDomains u2048.data = some v2049.data := by
  have hlen : u2048.data.length = 2048 := by
    show ("https://www.bilibili.com?".data ++ aRun).length = 2048
    rw [List.length_append]
    have h₁ : ("https://www.bilibili.com?".data).length = 25 := rfl
    have h₂ : aRun.length = 2023 := by
      show (List.replicate 2023 'a').length = 2023
      exact List.length_replicate 2023 'a'
    omega
  unfold Norm.normalizeSingleUrl
  simp only [Norm.normalizeSingleUrlRec]
  rw [if_neg (by
    rw [hlen]
    push_neg
    constructor
    · intro h₂
      have := congrArg List.length h₂
      rw [hlen] at this
      simp at this
    · omega)]
  have htry : Norm.tryParseCandidate u2048.data = some cexRec := by
    unfold Norm.tryParseCandidate
    rw [parse_u2048]
  rw [htry]
  simp only []
  rw [if_neg (by decide : ¬ ((!(Url.protocol cexRec == "http:".data ||
    Url.protocol cexRec == "https:".data)) = true))]
  rw [if_neg (by decide : ¬ (Norm.isPrivateHostname (Url.lowerStr cexRec.host) = true))]
  rw [if_neg (by decide : ¬ ((!Norm.isAllowedDomain Norm.biliDomains
    (Url.lowerStr cexRec.host)) = true))]
  simp only [Option.map_some']
  rw [show ({ cexRec with fragment := none } : Url.UrlRec) = cexRec from rfl, serialize_cexRec]

theorem Url.jsTrim_eq_self_of_all {cs : List Char}
    (h : ∀ c ∈ cs, Url.isJsWhitespace c = false) : Url.jsTrim cs = cs := by
  unfold Url.jsTrim
  rw [ListH.dropWhile_eq_self_of_all h]
  rw [ListH.dropWhile_eq_self_of_all (fun c hc => h c (List.mem_reverse.mp hc))]
  simp

theorem u2048_len : u2048.data.length = 2048 := by
  show ("https://www.bilibili.com?".data ++ aRun).length = 2048
  rw [List.length_append]
  have h₁ : ("https://www.bilibili.com?".data).length = 25 := rfl
  have h₂ : aRun.length = 2023 := by
    show (List.replicate 2023 'a').length = 2023
    exact List.length_replicate 2023 'a'
  omega

theorem v2049_len : v2049.data.length = 2049 := by
  show ("https://www.bilibili.com/?".data ++ aRun).length = 2049
  rw [List.length_append]
  have h₁ : ("https://www.bilibili.com/?".data).length = 26 := rfl
  have h₂ : aRun.length = 2023 := by
    show (List.replicate 2023 'a').length = 2023
    exact List.length_replicate 2023 'a'
  omega

theorem u2048_cons : u2048.data = 'h' :: ("ttps://www.bilibili.com?".data ++ aRun) := rfl

theorem v2049_cons : v2049.data = 'h' :: ("ttps://www.bilibili.com/?".data ++ aRun) := rfl

theorem u2048_ne : u2048.data ≠ [] := by
  rw [u2048_cons]; exact List.cons_ne_nil _ _

theorem v2049_ne : v2049.data ≠ [] := by
  rw [v2049_cons]; exact List.cons_ne_nil _ _

theorem u2048_all_not_ws : ∀ c ∈ u2048.data, Url.isJsWhitespace c = false := by
  intro c hc
  have hm : c ∈ "https://www.bilibili.com?".data ++ aRun := hc
  rcases List.mem_append.mp hm with h | h
  · have hv : ∀ c ∈ "https://www.bilibili.com?".data, Url.isJsWhitespace c = false := by decide
    exact hv c h
  · rw [aRun_chars c h]; decide

theorem v2049_all_not_ws : ∀ c ∈ v2049.data, Url.isJsWhitespace c = false := by
  intro c hc
  have hm : c ∈ "https://www.bilibili.com/?".data ++ aRun := hc
  rcases List.mem_append.mp hm with h | h
  · have hv : ∀ c ∈ "https://www.bilibili.com/?".data, Url.isJsWhitespace c = false := by decide
    exact hv c h
  · rw [aRun_chars c h]; decide

theorem jsTrim_u2048 : Url.jsTrim u2048.data = u2048.data :=
  Url.jsTrim_eq_self_of_all u2048_all_not_ws

theorem jsTrim_v2049 : Url.jsTrim v2049.data = v2049.data :=
  Url.jsTrim_eq_self_of_all v2049_all_not_ws

theorem normInput_u2048 : Norm.biliNormalizeInputUrl u2048 = some v2049 := by
  unfold Norm.biliNormalizeInputUrl
  simp only [Norm.normalizeInputUrl]
  rw [jsTrim_u2048, if_neg u2048_ne, if_neg u2048_ne]
  have hle : u2048.data.length ≤ 2048 := by rw [u2048_len]
  rw [if_pos hle, normSingle_u2048]
  rfl

theorem aRun_reverse_cons (A : List Char) :
    (A ++ aRun).reverse = 'a' :: (List.replicate 2022 'a' ++ A.reverse) := by
  rw [List.reverse_append]
  have h : aRun.reverse = 'a' :: List.replicate 2022 'a' := by
    show (List.replicate 2023 'a').reverse = _
    rw [List.reverse_replicate]
    rw [show (2023 : Nat) = 2022 + 1 from rfl, List.replicate_succ]
  rw [h]
  rfl

theorem stripTrailing_v2049 :
    Norm.stripTrailing Norm.biliTrailingPunct v2049.data = v2049.data := by
  unfold Norm.stripTrailing
  have hr : v2049.data.reverse =
      'a' :: (List.replicate 2022 'a' ++ ("https://www.bilibili.com/?".data).reverse) := by
    show ("https://www.bilibili.com/?".data ++ aRun).reverse = _
    exact aRun_reverse_cons _
  rw [hr, List.dropWhile_cons]
  rw [if_neg (by decide : ¬ (Norm.biliTrailingPunct 'a' = true))]
  rw [← hr, List.reverse_reverse]

theorem sanitize_v2049 :
    Norm.sanitizeExtractedUrlBili v2049.data = some v2049.data := by
  simp only [Norm.sanitizeExtractedUrlBili]
  rw [if_neg v2049_ne, stripTrailing_v2049, jsTrim_v2049, if_neg v2049_ne]

theorem urlMatchAt_v2049 : Norm.urlMatchAt v2049.data = some (v2049.data, []) := by
  have hall : ∀ c ∈ "www.bilibili.com/?".data ++ aRun, (!Url.isJsWhitespace c) = true := by
    intro c hc
    rcases List.mem_append.mp hc with h | h
    · have hv : ∀ c ∈ "www.bilibili.com/?".data, (!Url.isJsWhitespace c) = true := by decide
      exact hv c h
    · rw [aRun_chars c h]; decide
  have htake : ("www.bilibili.com/?".data ++ aRun).takeWhile (fun c => !Url.isJsWhitespace c) =
      "www.bilibili.com/?".data ++ aRun := ListH.takeWhile_eq_self_of_all hall
  have hdrop : ("www.bilibili.com/?".data ++ aRun).dropWhile (fun c => !Url.isJsWhitespace c) =
      [] := ListH.dropWhile_eq_nil_of_all hall
  have hXne : ("www.bilibili.com/?".data ++ aRun) ≠ [] := by
    intro h
    have h0 : ("www.bilibili.com/?".data ++ aRun).length = 0 := by rw [h]; rfl
    rw [List.length_append] at h0
    have h₁ : ("www.bilibili.com/?".data).length = 18 := rfl
    omega
  have h1 : Norm.stripPrefixCi "http".data v2049.data =
      some ("http".data, 's' :: ("://www.bilibili.com/?".data ++ aRun)) := rfl
  have h2 : Norm.stripPrefixCi "://".data ("://www.bilibili.com/?".data ++ aRun) =
      some ("://".data, "www.bilibili.com/?".data ++ aRun) := rfl
  simp only [Norm.urlMatchAt]
  rw [h1]
  simp only []
  rw [if_pos (by decide : Url.lowerChar 's' = 's')]
  rw [h2]
  simp only []
  rw [htake, if_neg hXne, hdrop]
  rfl

theorem urlMatchesAux_nil : ∀ n, Norm.urlMatchesAux n [] = [] := by
  intro n
  cases n <;> rfl

theorem urlMatchesAux_cons (fuel : Nat) (c : Char) (rest : List Char) :
    Norm.urlMatchesAux (fuel + 1) (c :: rest) =
      match Norm.urlMatchAt (c :: rest) with
      | some (m, after) => m :: Norm.urlMatchesAux fuel after
      | none => Norm.urlMatchesAux fuel rest := by
  simp only [Norm.urlMatchesAux]

theorem urlMatches_v2049 : Norm.urlMatches v2049.data = [v2049.data] := by
  unfold Norm.urlMatches
  rw [v2049_len, v2049_cons]
  rw [show (2049 : Nat) = 2048 + 1 from rfl]
  rw [urlMatchesAux_cons]
  rw [← v2049_cons, urlMatchAt_v2049]
  simp only [urlMatchesAux_nil]

theorem extract_v2049 : Norm.extractCandidateUrlsBili v2049.data = [v2049.data] := by
  unfold Norm.extractCandidateUrlsBili
  rw [urlMatches_v2049]
  simp only [List.filterMap_cons, List.filterMap_nil, sanitize_v2049]

theorem normSingle_v2049 : Norm.normalizeSingleUrl Norm.biliDomains v2049.data = none := by
  unfold Norm.normalizeSingleUrl
  have hrec : Norm.normalizeSingleUrlRec Norm.biliDomains v2049.data = none := by
    simp only [Norm.normalizeSingleUrlRec]
    rw [if_pos (Or.inr (by rw [v2049_len]; omega))]
  rw [hrec]
  rfl

theorem normInput_v2049 : Norm.biliNormalizeInputUrl v2049 = none := by
  unfold Norm.biliNormalizeInputUrl
  simp only [Norm.normalizeInputUrl]
  rw [jsTrim_v2049, if_neg v2049_ne, if_neg v2049_ne]
  rw [if_neg (show ¬ v2049.data.length ≤ 2048 by rw [v2049_len]; omega)]
  simp only []
  rw [extract_v2049, List.findSome?_cons, normSingle_v2049]
  simp only [List.findSome?_nil]
  rfl

/-- C5: the claimed idempotence of `normalizeInputUrl` fails at the 2048-character
boundary: the 2048-character input below normalizes (via the direct branch) to a
2049-character URL, and re-normalizing that output yields `null` because the
output exceeds the length limit and its single extracted candidate is rejected
by `normalizeSingleUrl` for the same reason. -/
theorem claim_C5_cex :
    u2048.length = 2048 ∧ v2049.length = 2049 ∧
    Norm.biliNormalizeInputUrl u2048 = some v2049 ∧
    Norm.biliNormalizeInputUrl v2049 = none :=
  ⟨u2048_len, v2049_len, normInput_u2048, normInput_v2049⟩

theorem joinSep_first_last (sep first last : String) (xs : List String) :
    ∃ mid, (Msg.joinSep sep (first :: (xs ++ [last]))).data =
      first.data ++ mid ++ last.data := by
  induction xs generalizing first with
  | nil => exact ⟨sep.data, rfl⟩
  | cons x xs ih =>
    obtain ⟨mid', hmid⟩ := ih x
    refine ⟨sep.data ++ x.data ++ mid', ?_⟩
    show ((first ++ sep ++ Msg.joinSep sep (x :: (xs ++ [last]))).data) = _
    show first.data ++ sep.data ++ (Msg.joinSep sep (x :: (xs ++ [last]))).data = _
    rw [hmid]
    simp [List.append_assoc]

theorem joinSep_sandwich (sep a t last : String) (ms : List String) :
    ∃ mid, (Msg.joinSep sep ((a ++ t) :: (ms ++ [last]))).data =
      a.data ++ mid ++ last.data := by
  obtain ⟨mid', hmid⟩ := joinSep_first_last sep (a ++ t) last ms
  refine ⟨t.data ++ mid', ?_⟩
  rw [hmid]
  show (a.data ++ t.data) ++ mid' ++ last.data = _
  simp [List.append_assoc]

theorem formatBiliText_sandwich (v : BiliFull.BiliVideo) :
    ∃ mid, (BiliFull.formatBiliText v).data =
      "标题：".data ++ mid ++ ("链接：" ++ Msg.simplifyUrl v.url).data := by
  simp only [BiliFull.formatBiliText, List.cons_append, List.nil_append,
    ← List.append_assoc]
  exact joinSep_sandwich "\n\n" "标题："
    (if Msg.strTrim v.title = "" then "未能获取标题" else Msg.strTrim v.title)
    ("链接：" ++ Msg.simplifyUrl v.url) _

/-- C4 (amended): in the standalone plugin variant (`unnamed/part_002`),
for every video with a (truthy) cover image the forward sequence is the
cover-image message first, then the labeled text block, then the optional
downloaded-video message, then the optional raw media-link text, in that
order; and the text block starts with the 标题 label and ends with the
链接 label followed by the simplified canonical link.  (In `src/bili.ts`
the text block precedes the cover image; see the counterexample.) -/
theorem claim_C4 (v : BiliFull.BiliVideo) (sender : String)
    (downloaded : Option String) (c : String)
    (hc : v.coverImage = some c) (hne : c ≠ "") :
    BiliFull.buildForwardMessagesForBili v sender downloaded =
      ⟨sender, "B站解析", [Msg.MessageSegment.image c]⟩ ::
      ⟨sender, "B站解析", [Msg.MessageSegment.text (BiliFull.formatBiliText v)]⟩ ::
      ((match downloaded with
        | some f =>
          if f = "" then []
          else [⟨sender, "B站解析", [Msg.MessageSegment.video f]⟩]
        | none => []) ++
       (if BiliFull.formatBiliMediaLinks v = "" then []
        else [⟨sender, "B站解析",
          [Msg.MessageSegment.text (BiliFull.formatBiliMediaLinks v)]⟩])) ∧
    (∃ mid, (BiliFull.formatBiliText v).data =
      "标题：".data ++ mid ++ ("链接：" ++ Msg.simplifyUrl v.url).data) := by
  constructor
  · simp only [BiliFull.buildForwardMessagesForBili, hc, if_neg hne]
    simp [List.append_assoc]
  · exact formatBiliText_sandwich v

theorem claim_C4_witness :
    c4FullVideo.coverImage = some "https://i0.hdslb.com/c.jpg" ∧
    ("https://i0.hdslb.com/c.jpg" : String) ≠ "" ∧
    (BiliFull.buildForwardMessagesForBili c4FullVideo "u" none =
      ⟨"u", "B站解析", [Msg.MessageSegment.image "https://i0.hdslb.com/c.jpg"]⟩ ::
      ⟨"u", "B站解析",
        [Msg.MessageSegment.text (BiliFull.formatBiliText c4FullVideo)]⟩ :: [] ∧
     ∃ mid, (BiliFull.formatBiliText c4FullVideo).data =
       "标题：".data ++ mid ++
         ("链接：" ++ Msg.simplifyUrl c4FullVideo.url).data) := by
  refine ⟨rfl, by decide, ?_⟩
  have h := claim_C4 c4FullVideo "u" none "https://i0.hdslb.com/c.jpg" rfl (by decide)
  exact h

/-- C4 counterexample: in `src/bili.ts` the cover-image segment is NOT the
first forward message — the labeled text block comes first and the cover
image second, and a text segment is never an image segment. -/
theorem claim_C4_cex :
    c4SrcVideo.coverImage = some "https://i0.hdslb.com/c.jpg" ∧
    BiliSrc.buildForwardMessagesForBili c4SrcVideo "u" =
      [⟨"u", "B站解析",
         [Msg.MessageSegment.text (BiliSrc.formatBiliText c4SrcVideo)]⟩,
       ⟨"u", "B站解析", [Msg.MessageSegment.image "https://i0.hdslb.com/c.jpg"]⟩] ∧
    Msg.MessageSegment.text (BiliSrc.formatBiliText c4SrcVideo) ≠
      Msg.MessageSegment.image "https://i0.hdslb.com/c.jpg" := by
  refine ⟨rfl, ?_, fun h => Msg.MessageSegment.noConfusion h⟩
  show _ = [⟨"u", "B站解析", [Msg.MessageSegment.text (BiliSrc.formatBiliText c4SrcVideo)]⟩,
    ⟨"u", "B站解析", [Msg.MessageSegment.image "https://i0.hdslb.com/c.jpg"]⟩]
  simp only [BiliSrc.buildForwardMessagesForBili]
  rw [show c4SrcVideo.coverImage = some "https://i0.hdslb.com/c.jpg" from rfl]
  simp only []
  rw [if_neg (by decide : ¬ ("https://i0.hdslb.com/c.jpg" : String) = "")]

theorem fetchOk_shape (idType : Api.IdType) (id : String)
    (a1 a2 : Except String Json) (j : Json)
    (h : Api.fetchJson a1 a2 = Except.ok j) :
    ∃ r, Api.fetchBiliVideoFromId idType id a1 a2 = Except.ok r := by
  unfold Api.fetchBiliVideoFromId
  rw [h]
  simp only []
  by_cases hc : (!(Json.truthy j) || !(Json.typeofIsObject j)) = true
  · rw [if_pos hc]
    exact ⟨none, rfl⟩
  · rw [if_neg hc]
    cases hcode : Json.jfield j "code" with
    | none => exact ⟨none, rfl⟩
    | some cv =>
      cases cv with
      | num c =>
        cases hdata : Json.jfield j "data" with
        | none => exact ⟨none, rfl⟩
        | some d =>
          simp only []
          by_cases hcd : (c = 0 && Json.truthy d) = true
          · rw [if_pos hcd]
            exact ⟨_, rfl⟩
          · rw [if_neg hcd]
            exact ⟨none, rfl⟩
      | null => exact ⟨none, rfl⟩
      | bool b => exact ⟨none, rfl⟩
      | str s => exact ⟨none, rfl⟩
      | arr items => exact ⟨none, rfl⟩
      | obj fields => exact ⟨none, rfl⟩

theorem fetchNull_shape (idType : Api.IdType) (id : String)
    (a1 a2 : Except String Json) (j : Json)
    (h : Api.fetchJson a1 a2 = Except.ok j)
    (hbad : Json.typeofIsObject j = false ∨ Json.truthy j = false ∨
      Json.jfield j "code" ≠ some (Json.num 0) ∨
      Json.jfield j "data" = none ∨
      (∃ d, Json.jfield j "data" = some d ∧ Json.truthy d = false)) :
    Api.fetchBiliVideoFromId idType id a1 a2 = Except.ok none := by
  unfold Api.fetchBiliVideoFromId
  rw [h]
  simp only []
  by_cases hc : (!(Json.truthy j) || !(Json.typeofIsObject j)) = true
  · rw [if_pos hc]
  · rw [if_neg hc]
    have hboth : Json.truthy j = true ∧ Json.typeofIsObject j = true := by
      have hcc := hc
      simp only [Bool.or_eq_true, Bool.not_eq_true', not_or, Bool.not_eq_false] at hcc
      exact hcc
    have htr := hboth.1
    have hobj := hboth.2
    rcases hbad with hb | hb | hb | hb | hb
    · rw [hobj] at hb
      cases hb
    · rw [htr] at hb
      cases hb
    · cases hcode : Json.jfield j "code" with
      | none => rfl
      | some cv =>
        cases cv with
        | num c =>
          cases hdata : Json.jfield j "data" with
          | none => rfl
          | some d =>
            simp only []
            have hcz : ¬ c = 0 := by
              intro hcz
              subst hcz
              exact hb hcode
            rw [if_neg (by simp [hcz])]
        | null => rfl
        | bool b => rfl
        | str s => rfl
        | arr items => rfl
        | obj fields => rfl
    · rw [hb]
      cases hcode : Json.jfield j "code" with
      | none => rfl
      | some cv => cases cv <;> rfl
    · obtain ⟨d, hd, hdf⟩ := hb
      rw [hd]
      cases hcode : Json.jfield j "code" with
      | none => rfl
      | some cv =>
        cases cv with
        | num c =>
          simp only []
          rw [if_neg (by simp [hdf])]
        | null => rfl
        | bool b => rfl
        | str s => rfl
        | arr items => rfl
        | obj fields => rfl

theorem fetchErr_shape (idType : Api.IdType) (id : String)
    (a1 a2 : Except String Json) (e : String)
    (h : Api.fetchJson a1 a2 = Except.error e) :
    Api.fetchBiliVideoFromId idType id a1 a2 = Except.error e := by
  unfold Api.fetchBiliVideoFromId
  rw [h]

/-- C7: whenever the transport layer delivers a JSON body, the embedded
`fetchBiliVideoFromId` returns a value and never an error; it returns
`null` in particular when the payload is not an object, is falsy, has a
`code` other than the number 0, or has a missing or falsy `data` field;
when `fetchJson` rethrows a transport error it propagates that error; and
an error escapes exactly when both network attempts failed. -/
theorem claim_C7 (idType : Api.IdType) (id : String)
    (a1 a2 : Except String Json) :
    (∀ j, Api.fetchJson a1 a2 = Except.ok j →
      ∃ r, Api.fetchBiliVideoFromId idType id a1 a2 = Except.ok r) ∧
    (∀ j, Api.fetchJson a1 a2 = Except.ok j →
      (Json.typeofIsObject j = false ∨ Json.truthy j = false ∨
       Json.jfield j "code" ≠ some (Json.num 0) ∨
       Json.jfield j "data" = none ∨
       (∃ d, Json.jfield j "data" = some d ∧ Json.truthy d = false)) →
      Api.fetchBiliVideoFromId idType id a1 a2 = Except.ok none) ∧
    (∀ e, Api.fetchJson a1 a2 = Except.error e →
      Api.fetchBiliVideoFromId idType id a1 a2 = Except.error e) ∧
    ((∃ e, Api.fetchBiliVideoFromId idType id a1 a2 = Except.error e) ↔
      ((∃ e1, a1 = Except.error e1) ∧ (∃ e2, a2 = Except.error e2))) := by
  refine ⟨fun j h => fetchOk_shape idType id a1 a2 j h,
    fun j h hbad => fetchNull_shape idType id a1 a2 j h hbad,
    fun e h => fetchErr_shape idType id a1 a2 e h, ?_⟩
  constructor
  · rintro ⟨e, he⟩
    cases ha1 : a1 with
    | ok v =>
      obtain ⟨r, hr⟩ := fetchOk_shape idType id a1 a2 v (by
        unfold Api.fetchJson
        rw [ha1])
      rw [hr] at he
      cases he
    | error e1 =>
      cases ha2 : a2 with
      | ok v =>
        obtain ⟨r, hr⟩ := fetchOk_shape idType id a1 a2 v (by
          unfold Api.fetchJson
          rw [ha1, ha2])
        rw [hr] at he
        cases he
      | error e2 => exact ⟨⟨e1, rfl⟩, e2, rfl⟩
  · rintro ⟨⟨e1, h1⟩, e2, h2⟩
    subst h1
    subst h2
    exact ⟨e2, rfl⟩

theorem claim_C7_witness :
    Api.fetchJson (Except.ok (Json.obj [("code", Json.num (-404))]))
      (Except.error "net") = Except.ok (Json.obj [("code", Json.num (-404))]) ∧
    Api.fetchBiliVideoFromId Api.IdType.bv "BV1xx4y1x7Nq"
      (Except.ok (Json.obj [("code", Json.num (-404))])) (Except.error "net") =
      Except.ok none :=
  ⟨rfl, (claim_C7 Api.IdType.bv "BV1xx4y1x7Nq"
      (Except.ok (Json.obj [("code", Json.num (-404))])) (Except.error "net")).2.1
    (Json.obj [("code", Json.num (-404))]) rfl
    (Or.inr (Or.inr (Or.inl (by
      intro h
      rw [show Json.jfield (Json.obj [("code", Json.num (-404))]) "code" =
        some (Json.num (-404)) from rfl] at h
      injection h with h1
      injection h1 with h2
      exact absurd h2 (by decide)))))⟩

theorem foldl_closeStep_frozen (o cl : Char) (cs : List Char) :
    ∀ st d i r, (cs.foldl (Xhs.closeStep o cl) (st, d, i, some r)).2.2.2 = some r := by
  induction cs with
  | nil => intro st d i r; rfl
  | cons c rest ih => intro st d i r; exact ih _ _ _ _

theorem foldl_closeStep_res_ge (o cl : Char) (cs : List Char) :
    ∀ st d i n, (cs.foldl (Xhs.closeStep o cl) (st, d, i, none)).2.2.2 = some n →
      i ≤ n := by
  induction cs with
  | nil => intro st d i n h; cases h
  | cons c rest ih =>
    intro st d i n h
    simp only [List.foldl_cons] at h
    match st with
    | some s =>
      have := ih (Xhs.stringStep (some s) c) d (i + 1) n h
      omega
    | none =>
      simp only [Xhs.closeStep] at h
      by_cases hq : (c == '"' || c == '\'') = true
      · rw [if_pos hq] at h
        have := ih _ _ _ _ h
        omega
      · rw [if_neg hq] at h
        by_cases ho : (c == o) = true
        · rw [if_pos ho] at h
          have := ih _ _ _ _ h
          omega
        · rw [if_neg ho] at h
          by_cases hc : (c == cl) = true
          · rw [if_pos hc] at h
            by_cases hd : d - 1 = 0
            · rw [if_pos hd] at h
              rw [foldl_closeStep_frozen] at h
              injection h with h1
              omega
            · rw [if_neg hd] at h
              have := ih _ _ _ _ h
              omega
          · rw [if_neg hc] at h
            have := ih _ _ _ _ h
            omega

theorem scanBalanced_fold (o cl : Char) (cs : List Char) :
    ∀ (d : Int) (q : Char) (i : Nat),
      (Xhs.scanBalanced o cl cs d false false q =
        ((cs.foldl (Xhs.closeStep o cl) (none, d, i, none)).2.2.2).map
          (fun n => n + 1 - i)) ∧
      (∀ esc, Xhs.scanBalanced o cl cs d true esc q =
        ((cs.foldl (Xhs.closeStep o cl) (some (q, esc), d, i, none)).2.2.2).map
          (fun n => n + 1 - i)) := by
  induction cs with
  | nil =>
    intro d q i
    exact ⟨rfl, fun esc => rfl⟩
  | cons c rest ih =>
    intro d q i
    have hfin : ∀ (st : Option (Char × Bool)) (d' : Int),
        (Option.map (fun n => n + 1 - (i + 1))
            (rest.foldl (Xhs.closeStep o cl) (st, d', i + 1, none)).2.2.2).map (· + 1) =
          Option.map (fun n => n + 1 - i)
            (rest.foldl (Xhs.closeStep o cl) (st, d', i + 1, none)).2.2.2 := by
      intro st d'
      cases hres : (rest.foldl (Xhs.closeStep o cl) (st, d', i + 1, none)).2.2.2 with
      | none => rfl
      | some n =>
        have hge := foldl_closeStep_res_ge o cl rest st d' (i + 1) n hres
        simp only [Option.map_some']
        congr 1
        omega
    constructor
    · show Xhs.scanBalanced o cl (c :: rest) d false false q = _
      rw [show Xhs.scanBalanced o cl (c :: rest) d false false q =
        (if c == '"' || c == '\'' then
          (Xhs.scanBalanced o cl rest d true false c).map (· + 1)
         else if c == o then
          (Xhs.scanBalanced o cl rest (d + 1) false false q).map (· + 1)
         else if c == cl then
          (if d - 1 = 0 then some 1
           else (Xhs.scanBalanced o cl rest (d - 1) false false q).map (· + 1))
         else (Xhs.scanBalanced o cl rest d false false q).map (· + 1)) from rfl]
      rw [show (c :: rest).foldl (Xhs.closeStep o cl) (none, d, i, none) =
        rest.foldl (Xhs.closeStep o cl)
          (if c == '"' || c == '\'' then ((some (c, false) : Option (Char × Bool)), d, i + 1, (none : Option Nat))
           else if c == o then (none, d + 1, i + 1, none)
           else if c == cl then
            (none, d - 1, i + 1, if d - 1 = 0 then some i else none)
           else (none, d, i + 1, none)) from rfl]
      by_cases hq : (c == '"' || c == '\'') = true
      · rw [if_pos hq, if_pos hq, (ih d c (i + 1)).2 false]
        exact hfin _ _
      · rw [if_neg hq, if_neg hq]
        by_cases ho : (c == o) = true
        · rw [if_pos ho, if_pos ho, (ih (d + 1) q (i + 1)).1]
          exact hfin _ _
        · rw [if_neg ho, if_neg ho]
          by_cases hc : (c == cl) = true
          · rw [if_pos hc, if_pos hc]
            by_cases hd : d - 1 = 0
            · rw [if_pos hd, if_pos hd, foldl_closeStep_frozen]
              simp only [Option.map_some']
              congr 1
              omega
            · rw [if_neg hd, if_neg hd, (ih (d - 1) q (i + 1)).1]
              exact hfin _ _
          · rw [if_neg hc, if_neg hc, (ih d q (i + 1)).1]
            exact hfin _ _
    · intro esc
      cases esc with
      | true =>
        show Xhs.scanBalanced o cl (c :: rest) d true true q = _
        rw [show Xhs.scanBalanced o cl (c :: rest) d true true q =
          (Xhs.scanBalanced o cl rest d true false q).map (· + 1) from rfl]
        rw [show (c :: rest).foldl (Xhs.closeStep o cl) (some (q, true), d, i, none) =
          rest.foldl (Xhs.closeStep o cl) (some (q, false), d, i + 1, none) from rfl]
        rw [(ih d q (i + 1)).2 false]
        exact hfin _ _
      | false =>
        show Xhs.scanBalanced o cl (c :: rest) d true false q = _
        rw [show Xhs.scanBalanced o cl (c :: rest) d true false q =
          (if c == '\\' then (Xhs.scanBalanced o cl rest d true true q).map (· + 1)
           else if c == q then (Xhs.scanBalanced o cl rest d false false q).map (· + 1)
           else (Xhs.scanBalanced o cl rest d true false q).map (· + 1)) from rfl]
        rw [show (c :: rest).foldl (Xhs.closeStep o cl) (some (q, false), d, i, none) =
          rest.foldl (Xhs.closeStep o cl)
            ((if c == '\\' then some (q, true)
              else if c == q then none else some (q, false)), d, i + 1, none) from rfl]
        by_cases hb : (c == '\\') = true
        · rw [if_pos hb, if_pos hb, (ih d q (i + 1)).2 true]
          exact hfin _ _
        · rw [if_neg hb, if_neg hb]
          by_cases hcq : (c == q) = true
          · rw [if_pos hcq, if_pos hcq, (ih d q (i + 1)).1]
            exact hfin _ _
          · rw [if_neg hcq, if_neg hcq, (ih d q (i + 1)).2 false]
            exact hfin _ _

theorem scanBalanced_spec (o cl q : Char) (cs : List Char) :
    Xhs.scanBalanced o cl cs 0 false false q =
      (Xhs.matchingCloseIdx o cl cs).map (fun n => n + 1) := by
  rw [(scanBalanced_fold o cl cs 0 q 0).1]
  unfold Xhs.matchingCloseIdx
  cases (cs.foldl (Xhs.closeStep o cl) (none, 0, 0, none)).2.2.2 with
  | none => rfl
  | some n => rfl

/-- C9: the balanced-bracket scanners are correct.  `extractJsonArray`
returns exactly the slice from the start index through the matching
closing bracket — where matching is decided by a depth counter that
ignores delimiters inside single- or double-quoted strings and respects
backslash escaping (`matchingCloseIdx`) — and `null` when the delimiters
never balance; `extractJsonAssignment` does the same for the brace block
after the `=` following its marker. -/
theorem claim_C9 (html : String) (start : Nat) (marker : String) :
    Xhs.extractJsonArray html start =
      (Xhs.matchingCloseIdx '[' ']' (html.data.drop start)).map
        (fun n => String.mk ((html.data.drop start).take (n + 1))) ∧
    Xhs.extractJsonAssignment html marker =
      (match Xhs.strIndexOf html.data marker.data 0 with
       | none => none
       | some idx =>
         match Xhs.strIndexOf html.data ['='] idx with
         | none => none
         | some eqIdx =>
           match Xhs.strIndexOf html.data [Char.ofNat 123] eqIdx with
           | none => none
           | some bStart =>
             (Xhs.matchingCloseIdx (Char.ofNat 123) (Char.ofNat 125)
                 (html.data.drop bStart)).map
               (fun n => String.mk ((html.data.drop bStart).take (n + 1)))) := by
  constructor
  · unfold Xhs.extractJsonArray
    rw [scanBalanced_spec]
    cases Xhs.matchingCloseIdx '[' ']' (html.data.drop start) with
    | none => rfl
    | some n => rfl
  · unfold Xhs.extractJsonAssignment
    cases Xhs.strIndexOf html.data marker.data 0 with
    | none => rfl
    | some idx =>
      simp only []
      cases Xhs.strIndexOf html.data ['='] idx with
      | none => rfl
      | some eqIdx =>
        simp only []
        cases Xhs.strIndexOf html.data [Char.ofNat 123] eqIdx with
        | none => rfl
        | some bStart =>
          simp only []
          rw [scanBalanced_spec]
          cases Xhs.matchingCloseIdx (Char.ofNat 123) (Char.ofNat 125)
              (html.data.drop bStart) with
          | none => rfl
          | some n => rfl

/-- C8 (amended): `parseXhsNote` is total, and when the page yields no
og:/description meta tag, no title tag, no JSON-LD candidate, no
imageList blob, AND the image sweeps of `extractImagesFromHtml` (which
also scan raw image-looking URLs anywhere in the page text) find nothing,
it returns the placeholder title, empty content, and an empty image list.
(The original wording omits the raw URL sweep: a page with no marker at
all can still yield images — see the counterexample.) -/
theorem claim_C8 (html url : String) (jp : String → Option Json)
    (h1 : Xhs.extractMeta html "og:title" = none)
    (h2 : Xhs.extractTitle html = none)
    (h3 : Xhs.extractMeta html "og:description" = none)
    (h4 : Xhs.extractMeta html "description" = none)
    (h5 : Xhs.extractMeta html "og:image" = none)
    (h6 : Xhs.extractMeta html "og:image:secure_url" = none)
    (h7 : Xhs.extractMeta html "image" = none)
    (h8 : Xhs.extractJsonLd html jp = none)
    (h9 : Xhs.extractImageListFromHtml html jp = [])
    (h10 : Xhs.extractImagesFromHtml html jp = []) :
    Xhs.parseXhsNote html url jp =
      { title := "未能获取标题", content := "", images := [],
        coverImage := none, url := url, sourceUrl := none } := by
  simp only [Xhs.parseXhsNote, h1, h2, h3, h4, h5, h6, h7, h8, h9, h10]
  rfl

theorem claim_C8_witness :
    Xhs.extractMeta "hello" "og:title" = none ∧
    Xhs.extractTitle "hello" = none ∧
    Xhs.extractMeta "hello" "og:description" = none ∧
    Xhs.extractMeta "hello" "description" = none ∧
    Xhs.extractMeta "hello" "og:image" = none ∧
    Xhs.extractMeta "hello" "og:image:secure_url" = none ∧
    Xhs.extractMeta "hello" "image" = none ∧
    Xhs.extractJsonLd "hello" jpNone = none ∧
    Xhs.extractImageListFromHtml "hello" jpNone = [] ∧
    Xhs.extractImagesFromHtml "hello" jpNone = [] ∧
    Xhs.parseXhsNote "hello" "https://www.xiaohongshu.com/explore/x" jpNone =
      { title := "未能获取标题", content := "", images := [],
        coverImage := none, url := "https://www.xiaohongshu.com/explore/x",
        sourceUrl := none } :=
  ⟨rfl, rfl, rfl, rfl, rfl, rfl, rfl, rfl, rfl, rfl,
    claim_C8 "hello" "https://www.xiaohongshu.com/explore/x" jpNone
      rfl rfl rfl rfl rfl rfl rfl rfl rfl rfl⟩

/-- C8 counterexample: this page text contains no meta tag, no title tag,
no JSON-LD script, no imageList blob and no state-assignment blob — no
"recognizable marker" in the spec's list — yet `parseXhsNote` returns a
non-empty image list (and a cover), because `extractImagesFromHtml`
sweeps the raw text for image-looking URLs.  The JSON-parse oracle is
irrelevant: no script or blob is ever found, so it is never consulted. -/
theorem claim_C8_cex :
    Xhs.extractMeta xhsCexHtml "og:title" = none ∧
    Xhs.extractTitle xhsCexHtml = none ∧
    Xhs.extractMeta xhsCexHtml "og:description" = none ∧
    Xhs.extractMeta xhsCexHtml "description" = none ∧
    Xhs.extractMeta xhsCexHtml "og:image" = none ∧
    Xhs.extractMeta xhsCexHtml "og:image:secure_url" = none ∧
    Xhs.extractMeta xhsCexHtml "image" = none ∧
    Xhs.extractJsonLd xhsCexHtml jpNone = none ∧
    Xhs.extractJsonScriptById xhsCexHtml "__NEXT_DATA__" jpNone = none ∧
    Xhs.extractJsonAssignment xhsCexHtml "window.__INITIAL_STATE__" = none ∧
    Xhs.extractJsonAssignment xhsCexHtml "window.__PRELOADED_STATE__" = none ∧
    Xhs.extractJsonAssignment xhsCexHtml "window.__INITIAL_DATA__" = none ∧
    Xhs.extractImageListFromHtml xhsCexHtml jpNone = [] ∧
    (Xhs.parseXhsNote xhsCexHtml "https://www.xiaohongshu.com/explore/x" jpNone).images =
      ["https://a.b/i.jpg"] ∧
    (["https://a.b/i.jpg"] : List String) ≠ [] :=
  ⟨rfl, rfl, rfl, rfl, rfl, rfl, rfl, rfl, rfl, rfl, rfl, rfl, rfl, rfl,
    fun h => List.noConfusion h⟩

/-- C9 witness: the scanner/spec equality instantiated at a concrete page
with a bracket block containing a quoted `]`. -/
theorem claim_C9_witness :
    Xhs.extractJsonArray "a[[1,\"]\"],2]b" 1 =
      (Xhs.matchingCloseIdx '[' ']' (("a[[1,\"]\"],2]b" : String).data.drop 1)).map
        (fun n => String.mk ((("a[[1,\"]\"],2]b" : String).data.drop 1).take (n + 1))) ∧
    Xhs.extractJsonArray "a[[1,\"]\"],2]b" 1 = some "[[1,\"]\"],2]" :=
  ⟨(claim_C9 "a[[1,\"]\"],2]b" 1 "m").1, rfl⟩
